import Mathlib

/-!
Verification of the FIRST/FOLLOW/PREDICT analyzer in
`src/first_follow_pred_full_commented.py`.

The Python class `Grammar` carries four mutable caches
(`_first_cache`, `_first_rhs_cache`, `_follow_cache`, plus the unused
`_nullable_cache`).  We embed the analyzer shallowly: the caches become an
explicit state record `St` threaded through every operation, Python sets
become `Finset String`, Python dicts become association lists, and the
recursive FIRST computation becomes a fuel-indexed family of functions that
return `none` when the fuel runs out (the fuel bounds the recursion depth,
so termination statements become statements that some fuel yields `some`).
Operations that can raise `KeyError` in Python return `none` on those paths.
-/

namespace FFP

/-- The reserved empty-string marker `'ε'`. -/
def EPS : String := "ε"

/-- The reserved end-of-input marker `'$'`. -/
def DOLLAR : String := "$"

/-- `is_nonterminal(sym)`: `sym.isalpha() and sym.isupper()` — a nonempty
string of alphabetic characters, all upper-case. -/
def is_nonterminal (sym : String) : Bool :=
  !sym.toList.isEmpty && sym.toList.all (fun c => c.isAlpha)
    && sym.toList.all (fun c => c.isUpper)

/-- Python `set` of symbols. -/
abbrev FSet := Finset String

/-- Dictionary lookup (`d[k]` / `d.get(k)`), first matching key. -/
def lookupA {α β : Type} [DecidableEq α] : List (α × β) → α → Option β
  | [], _ => none
  | (k, v) :: rest, x => if x = k then some v else lookupA rest x

/-- Dictionary assignment `d[k] = v`: overwrite the entry if the key is
present, else append a new entry (Python dicts keep insertion order). -/
def setA {α β : Type} [DecidableEq α] : List (α × β) → α → β → List (α × β)
  | [], x, v => [(x, v)]
  | (k, w) :: rest, x, v =>
      if x = k then (k, v) :: rest else (k, w) :: setA rest x v

/-- The grammar value held by the analyzer: `self.productions` (a dict from
nonterminal to its list of right-hand sides) and `self.start`. -/
structure Grammar where
  productions : List (String × List (List String))
  start : String
deriving DecidableEq

/-- `Grammar.__init__`: stores the productions and start symbol.  The source
performs no validation whatsoever. -/
def Grammar.init (productions : List (String × List (List String)))
    (start : String) : Grammar :=
  { productions := productions, start := start }

/-- The analyzer's mutable caches: `_first_cache`, `_first_rhs_cache` and
`_follow_cache` (the `_nullable_cache` is declared but never used). -/
structure St where
  firstC : List (String × FSet)
  rhsC : List (List String × FSet)
  followC : List (String × FSet)
deriving DecidableEq

/-- The caches of a freshly constructed analyzer: all empty. -/
def initSt : St := ⟨[], [], []⟩

/-- `self.productions.get(X, [])`. -/
def prodsGet (g : Grammar) (X : String) : List (List String) :=
  (lookupA g.productions X).getD []

mutual

/-- `Grammar.first(X)`: memoized recursive FIRST of a nonterminal.  A
placeholder empty set is written into the cache before the productions of
`X` are processed; in Python the cache entry and the running `result` are
the same object, so here the running result lives in the cache and is read
back at every step. -/
def firstF : Nat → Grammar → String → St → Option (FSet × St)
  | 0, _, _, _ => none
  | n + 1, g, X, σ =>
    match lookupA σ.firstC X with
    | some s => some (s, σ)
    | none =>
      match firstGoF n g X (prodsGet g X)
          { σ with firstC := setA σ.firstC X ∅ } with
      | none => none
      | some σ2 => some ((lookupA σ2.firstC X).getD ∅, σ2)

/-- The `for alpha in self.productions.get(X, [])` loop of `first`: for each
right-hand side, union `first_of_rhs(alpha)` minus `ε` into the cached
running result, adding `ε` when `first_of_rhs(alpha)` contains it. -/
def firstGoF : Nat → Grammar → String → List (List String) → St → Option St
  | 0, _, _, _, _ => none
  | _ + 1, _, _, [], σ => some σ
  | n + 1, g, X, alpha :: rest, σ =>
    match firstOfRhsF n g alpha σ with
    | none => none
    | some (fa, σ2) =>
      let cur := (lookupA σ2.firstC X).getD ∅
      let r := (cur ∪ fa.erase EPS) ∪ (if EPS ∈ fa then {EPS} else (∅ : FSet))
      firstGoF n g X rest { σ2 with firstC := setA σ2.firstC X r }

/-- `Grammar.first_of_rhs(rhs)`: memoized FIRST of a sequence.  On a cache
miss, an empty sequence yields `{ε}`; otherwise the left-to-right scan
`scanF` runs and its result is written into the sequence cache. -/
def firstOfRhsF : Nat → Grammar → List String → St → Option (FSet × St)
  | 0, _, _, _ => none
  | n + 1, g, rhs, σ =>
    match lookupA σ.rhsC rhs with
    | some s => some (s, σ)
    | none =>
      if rhs = [] then
        some ({EPS}, { σ with rhsC := setA σ.rhsC rhs {EPS} })
      else
        match scanF n g rhs ∅ σ with
        | none => none
        | some (r, σ2) => some (r, { σ2 with rhsC := setA σ2.rhsC rhs r })

/-- The `for sym in rhs` loop of `first_of_rhs` with its `for … else`
clause: a terminal is added and the scan stops; a nonterminal contributes
`first(sym) - {ε}` and the scan continues iff `ε ∈ first(sym)`; if the loop
exhausts the sequence, `ε` is added. -/
def scanF : Nat → Grammar → List String → FSet → St → Option (FSet × St)
  | 0, _, _, _, _ => none
  | _ + 1, _, [], acc, σ => some (insert EPS acc, σ)
  | n + 1, g, sym :: rest, acc, σ =>
    if is_nonterminal sym = false then some (insert sym acc, σ)
    else
      match firstF n g sym σ with
      | none => none
      | some (fs, σ2) =>
        if EPS ∈ fs then scanF n g rest (acc ∪ fs.erase EPS) σ2
        else some (acc ∪ fs.erase EPS, σ2)

end

/-- `Grammar.derives_epsilon(rhs)`: whether `ε ∈ first_of_rhs(rhs)`. -/
def derivesEpsilonF (n : Nat) (g : Grammar) (rhs : List String) (σ : St) :
    Option (Bool × St) :=
  match firstOfRhsF n g rhs σ with
  | none => none
  | some (s, σ2) => some (decide (EPS ∈ s), σ2)

/-- The FIRST-cache update performed for one production inside the loop of
`first`: read the running result back from the cache, union in the new
contribution, and store it. -/
def goUpdate (X : String) (fa : FSet) (σ2 : St) : St :=
  let cur := (lookupA σ2.firstC X).getD ∅
  let r := (cur ∪ fa.erase EPS) ∪ (if EPS ∈ fa then {EPS} else (∅ : FSet))
  { σ2 with firstC := setA σ2.firstC X r }

/-- Replace the follow cache of a state. -/
def setFollow (σ : St) (m : List (String × FSet)) : St :=
  { σ with followC := m }

/-- The `self._follow_cache.setdefault(nt, set())` loop of `follow_all`:
insert an empty entry for every listed key that is not yet present. -/
def setdefaultAll (m : List (String × FSet)) : List String →
    List (String × FSet)
  | [] => m
  | k :: ks =>
    setdefaultAll (if (lookupA m k).isSome then m else m ++ [(k, ∅)]) ks

/-- The `for i, B in enumerate(symbols)` body of `follow_all` for one
production `A → symbols`, threading the dirty flag `changed`.  For a
nonterminal `B` with remainder `tail`, `FIRST(tail) - {ε}` is added to
`FOLLOW(B)`; if `tail` is empty or derives `ε`, the current `FOLLOW(A)` is
added as well; the flag is set when `FOLLOW(B)` changed.  Lookups of absent
keys (`KeyError` in Python, possible for a dangling `B`) yield `none`. -/
def followSymsF (fF : Nat) (g : Grammar) (A : String) :
    List String → St → Bool → Option (Bool × St)
  | [], σ, changed => some (changed, σ)
  | B :: tail, σ, changed =>
    if is_nonterminal B = false then followSymsF fF g A tail σ changed
    else
      match firstOfRhsF fF g tail σ with
      | none => none
      | some (firstRest, σ1) =>
        match lookupA σ1.followC B with
        | none => none
        | some before =>
          let mid := before ∪ firstRest.erase EPS
          let σ2 := { σ1 with followC := setA σ1.followC B mid }
          if EPS ∈ firstRest ∨ tail = [] then
            match lookupA σ2.followC A with
            | none => none
            | some fa =>
              followSymsF fF g A tail
                { σ2 with followC := setA σ2.followC B (mid ∪ fa) }
                (changed || decide (mid ∪ fa ≠ before))
          else
            followSymsF fF g A tail σ2 (changed || decide (mid ≠ before))

/-- The `for rhs in rhss` loop of one `follow_all` pass. -/
def followRhssF (fF : Nat) (g : Grammar) (A : String) :
    List (List String) → St → Bool → Option (Bool × St)
  | [], σ, c => some (c, σ)
  | rhs :: rest, σ, c =>
    match followSymsF fF g A rhs σ c with
    | none => none
    | some (c2, σ2) => followRhssF fF g A rest σ2 c2

/-- One full pass of `follow_all` over every production `A → alpha`. -/
def followProdsF (fF : Nat) (g : Grammar) :
    List (String × List (List String)) → St → Bool → Option (Bool × St)
  | [], σ, c => some (c, σ)
  | (A, rhss) :: rest, σ, c =>
    match followRhssF fF g A rhss σ c with
    | none => none
    | some (c2, σ2) => followProdsF fF g rest σ2 c2

/-- The `while changed` loop of `follow_all`: repeat passes until one pass
leaves every FollowSet unchanged.  `fL` bounds the number of passes. -/
def followLoopF (fF : Nat) (g : Grammar) : Nat → St → Option St
  | 0, _ => none
  | k + 1, σ =>
    match followProdsF fF g g.productions σ false with
    | none => none
    | some (changed, σ2) =>
      if changed then followLoopF fF g k σ2 else some σ2

/-- `Grammar.follow_all()`: seed the follow cache with an empty set per
production key, add `$` to `FOLLOW(start)` (a `KeyError`, hence `none`,
when the start symbol has no entry), then iterate passes to a fixed point.
The returned state's `followC` is the returned dictionary. -/
def followAllF (fF fL : Nat) (g : Grammar) (σ : St) : Option St :=
  let fc := setdefaultAll σ.followC (g.productions.map Prod.fst)
  match lookupA fc g.start with
  | none => none
  | some s =>
    followLoopF fF g fL { σ with followC := setA fc g.start (insert DOLLAR s) }

/-- The production key `f"{A} -> {' '.join(rhs) if rhs else 'ε'}"`:
rendering of the right-hand side. -/
def renderRhs (rhs : List String) : String :=
  if rhs = [] then EPS else String.intercalate " " rhs

/-- The full production key used by `prediction_sets`. -/
def prodKey (A : String) (rhs : List String) : String :=
  A ++ " -> " ++ renderRhs rhs

/-- The `for rhs in rhss` loop of `prediction_sets` for one head `A`:
`pred = FIRST(rhs) - {ε}`, extended with `FOLLOW(A)` when `ε ∈ FIRST(rhs)`
(the `follow_all[A]` lookup would be a `KeyError` for an absent key), and
stored under the production key (overwriting any previous entry). -/
def predRhssF (fF : Nat) (g : Grammar) (A : String) :
    List (List String) → List (String × FSet) → St →
    Option (List (String × FSet) × St)
  | [], preds, σ => some (preds, σ)
  | rhs :: rest, preds, σ =>
    match firstOfRhsF fF g rhs σ with
    | none => none
    | some (fr, σ1) =>
      if EPS ∈ fr then
        match lookupA σ1.followC A with
        | none => none
        | some fa =>
          predRhssF fF g A rest (setA preds (prodKey A rhs) (fr.erase EPS ∪ fa)) σ1
      else
        predRhssF fF g A rest (setA preds (prodKey A rhs) (fr.erase EPS)) σ1

/-- The outer `for A, rhss in self.productions.items()` loop of
`prediction_sets`. -/
def predProdsF (fF : Nat) (g : Grammar) :
    List (String × List (List String)) → List (String × FSet) → St →
    Option (List (String × FSet) × St)
  | [], preds, σ => some (preds, σ)
  | (A, rhss) :: rest, preds, σ =>
    match predRhssF fF g A rhss preds σ with
    | none => none
    | some (preds2, σ2) => predProdsF fF g rest preds2 σ2

/-- `Grammar.prediction_sets()`: run `follow_all` first, then assemble the
PREDICT set of every production into a fresh dictionary. -/
def predictionSetsF (fF fL : Nat) (g : Grammar) (σ : St) :
    Option (List (String × FSet) × St) :=
  match followAllF fF fL g σ with
  | none => none
  | some σ1 => predProdsF fF g g.productions [] σ1

/-- The structural-validity condition of the spec: the start symbol is a key
of `productions`, and every nonterminal-shaped symbol occurring in a body
is a key of `productions`. -/
def validG (g : Grammar) : Bool :=
  (lookupA g.productions g.start).isSome &&
    g.productions.all (fun p => p.2.all (fun rhs => rhs.all (fun sym =>
      !(is_nonterminal sym) || (lookupA g.productions sym).isSome)))

/-- Modelled from the spec: the specified left-to-right scan computing
`first_of_sequence(α)` from a fixed valuation `fv` of the FIRST sets of
nonterminals.  The empty sequence yields `{ε}`; a leading terminal is added
and the scan stops; a leading nonterminal contributes `fv sym - {ε}` and
the scan continues iff `ε ∈ fv sym`; `ε` is added iff every symbol is
scanned without stopping. -/
def firstOfSeqSpec (fv : String → FSet) : List String → FSet
  | [] => {EPS}
  | sym :: rest =>
    if is_nonterminal sym = false then {sym}
    else (fv sym).erase EPS ∪
      (if EPS ∈ fv sym then firstOfSeqSpec fv rest else (∅ : FSet))

/-- Pointwise growth of a follow dictionary: every entry present in `m` is
present in `m2` with a superset value. -/
def followLE (m m2 : List (String × FSet)) : Prop :=
  ∀ X v, lookupA m X = some v → ∃ v2, lookupA m2 X = some v2 ∧ v ⊆ v2

/-- The list of production keys of a grammar, one per production, in
iteration order. -/
def prodKeys (g : Grammar) : List String :=
  (g.productions.map (fun p => p.2.map (prodKey p.1))).flatten

/-- The heads of the grammar, as a finite set. -/
def keysF (g : Grammar) : Finset String :=
  (g.productions.map Prod.fst).toFinset

/-- Every symbol occurring in some production body, as a finite set. -/
def symbolsF (g : Grammar) : Finset String :=
  ((g.productions.map (fun p => p.2.flatten)).flatten).toFinset

/-- The symbols whose FIRST cache entry can influence the analysis: heads
plus body symbols. -/
def uSet (g : Grammar) : Finset String := keysF g ∪ symbolsF g

/-- The domain of the FIRST cache. -/
def domFC (σ : St) : Finset String := (σ.firstC.map Prod.fst).toFinset

/-- How many relevant symbols are still missing from the FIRST cache; the
quantity that shrinks when `first` recurses into an uncached nonterminal. -/
def muF (g : Grammar) (σ : St) : Nat := (uSet g \ domFC σ).card

/-- A common bound on the length of any list of alternatives and of any
body of the grammar. -/
def lenB (g : Grammar) : Nat :=
  (g.productions.map (fun p => p.2.length + (p.2.map List.length).sum)).sum

/-- Total number of members over all FOLLOW sets; the quantity that grows
strictly on every pass of `follow_all` that sets the dirty flag. -/
def followTotal (m : List (String × FSet)) : Nat :=
  (m.map (fun p => p.2.card)).sum

/-- The invariant of the analyzer state used for the `follow_all`
termination argument: every cached FIRST value is made of grammar symbols
and `ε`, and every FOLLOW value is made of grammar symbols and `$`, with
every head owning a FOLLOW entry. -/
def Inv (g : Grammar) (σ : St) : Prop :=
  (∀ p ∈ σ.firstC, p.2 ⊆ symbolsF g ∪ {EPS}) ∧
  (∀ p ∈ σ.rhsC, p.2 ⊆ symbolsF g ∪ {EPS}) ∧
  (∀ p ∈ σ.followC, p.2 ⊆ symbolsF g ∪ {DOLLAR}) ∧
  (∀ X ∈ g.productions.map Prod.fst, (lookupA σ.followC X).isSome = true)

/-- What a completed FIRST-stage operation preserves of the state: the
follow cache is untouched, every sequence-cache entry present at entry
keeps its exact value, and the FIRST cache only gains keys. -/
def StPres (σ σ2 : St) : Prop :=
  σ2.followC = σ.followC ∧
  (∀ k v, lookupA σ.rhsC k = some v → lookupA σ2.rhsC k = some v) ∧
  (∀ X, (lookupA σ.firstC X).isSome = true →
    (lookupA σ2.firstC X).isSome = true)

/-- The FIRST-stage part of the state invariant: every cached FIRST value
and every cached sequence value is made of grammar symbols and `ε`. -/
def WFfirst (g : Grammar) (σ : St) : Prop :=
  (∀ p ∈ σ.firstC, p.2 ⊆ symbolsF g ∪ {EPS}) ∧
  (∀ p ∈ σ.rhsC, p.2 ⊆ symbolsF g ∪ {EPS})

/-- Nonterminals of a list of symbols all belong to the relevant symbol
universe of the grammar. -/
def symsOKP (g : Grammar) (syms : List String) : Prop :=
  ∀ sym ∈ syms, is_nonterminal sym = true → sym ∈ uSet g

/-- Fuel sufficiency statement for `first`: whenever at most `k` relevant
symbols are missing from the FIRST cache, fuel `k * (2 * lenB g + 5) + 1`
makes `first` succeed on any relevant symbol. -/
def LfirstP (g : Grammar) (k : Nat) : Prop :=
  ∀ (σ : St) (X : String) (n : Nat), muF g σ ≤ k → X ∈ uSet g →
    k * (2 * lenB g + 5) + 1 ≤ n → (firstF n g X σ).isSome = true

/-- Fuel sufficiency statement for the scan loop. -/
def LscanP (g : Grammar) (k : Nat) : Prop :=
  ∀ (rhs : List String), symsOKP g rhs →
    ∀ (acc : FSet) (σ : St) (n : Nat), muF g σ ≤ k →
    rhs.length + k * (2 * lenB g + 5) + 3 ≤ n →
    (scanF n g rhs acc σ).isSome = true

/-- Fuel sufficiency statement for `first_of_rhs`. -/
def LrhsP (g : Grammar) (k : Nat) : Prop :=
  ∀ (rhs : List String), symsOKP g rhs →
    ∀ (σ : St) (n : Nat), muF g σ ≤ k →
    rhs.length + k * (2 * lenB g + 5) + 4 ≤ n →
    (firstOfRhsF n g rhs σ).isSome = true

/-- Fuel sufficiency statement for the production loop of `first`. -/
def LgoP (g : Grammar) (k : Nat) : Prop :=
  ∀ (alphas : List (List String)),
    (∀ alpha ∈ alphas, symsOKP g alpha ∧ alpha.length ≤ lenB g) →
    ∀ (X : String) (σ : St) (n : Nat), muF g σ ≤ k →
    alphas.length + lenB g + k * (2 * lenB g + 5) + 5 ≤ n →
    (firstGoF n g X alphas σ).isSome = true

/-- Enough `first`-fuel for every call that `follow_all` or
`prediction_sets` can make on this grammar. -/
def fuelFF (g : Grammar) : Nat :=
  lenB g + (uSet g).card * (2 * lenB g + 5) + 4

/-! ## Basic dictionary lemmas -/

theorem lookupA_isSome_iff {α β : Type} [DecidableEq α] (m : List (α × β))
    (x : α) : (lookupA m x).isSome = true ↔ x ∈ m.map Prod.fst := by
  induction m with
  | nil => simp [lookupA]
  | cons p rest ih =>
    obtain ⟨k, v⟩ := p
    by_cases h : x = k <;> simp [lookupA, h, ih]

theorem lookupA_eq_none_iff {α β : Type} [DecidableEq α] (m : List (α × β))
    (x : α) : lookupA m x = none ↔ x ∉ m.map Prod.fst := by
  induction m with
  | nil => simp [lookupA]
  | cons p rest ih =>
    obtain ⟨k, v⟩ := p
    by_cases h : x = k <;> simp [lookupA, h, ih]

theorem lookupA_setA_self {α β : Type} [DecidableEq α] (m : List (α × β))
    (k : α) (v : β) : lookupA (setA m k v) k = some v := by
  induction m with
  | nil => simp [setA, lookupA]
  | cons p rest ih =>
    obtain ⟨k2, w⟩ := p
    by_cases h : k = k2 <;> simp [setA, lookupA, h, ih]

theorem lookupA_setA_ne {α β : Type} [DecidableEq α] (m : List (α × β))
    (k : α) (v : β) (x : α) (h : x ≠ k) :
    lookupA (setA m k v) x = lookupA m x := by
  induction m with
  | nil => simp [setA, lookupA, h]
  | cons p rest ih =>
    obtain ⟨k2, w⟩ := p
    by_cases h2 : k = k2
    · subst h2
      simp [setA, lookupA, h]
    · by_cases h3 : x = k2 <;> simp [setA, lookupA, h2, h3, ih]

theorem lookupA_setA_isSome {α β : Type} [DecidableEq α] (m : List (α × β))
    (k : α) (v : β) (x : α) (h : (lookupA m x).isSome = true) :
    (lookupA (setA m k v) x).isSome = true := by
  by_cases hx : x = k
  · subst hx
    simp [lookupA_setA_self]
  · rwa [lookupA_setA_ne m k v x hx]

theorem setA_map_fst {α β : Type} [DecidableEq α] (m : List (α × β)) (k : α)
    (v : β) (h : (lookupA m k).isSome = true) :
    (setA m k v).map Prod.fst = m.map Prod.fst := by
  induction m with
  | nil => simp [lookupA] at h
  | cons p rest ih =>
    obtain ⟨k2, w⟩ := p
    by_cases h2 : k = k2
    · simp [setA, h2]
    · simp [lookupA, fun h3 => h2 (h3 : k = k2)] at h
      simp [setA, h2, ih h]

theorem setA_length {α β : Type} [DecidableEq α] (m : List (α × β)) (k : α)
    (v : β) (h : (lookupA m k).isSome = true) :
    (setA m k v).length = m.length := by
  have := congrArg List.length (setA_map_fst m k v h)
  simpa using this

theorem mem_of_lookupA_eq_some {α β : Type} [DecidableEq α]
    {m : List (α × β)} {x : α} {v : β} (h : lookupA m x = some v) :
    (x, v) ∈ m := by
  induction m with
  | nil => simp [lookupA] at h
  | cons p rest ih =>
    obtain ⟨k, w⟩ := p
    by_cases h2 : x = k
    · subst h2
      simp [lookupA] at h
      simp [h]
    · simp [lookupA, h2] at h
      simp [ih h]

theorem setA_mem {α β : Type} [DecidableEq α] {m : List (α × β)} {k : α}
    {v : β} {p : α × β} (h : p ∈ setA m k v) : p ∈ m ∨ p = (k, v) := by
  induction m with
  | nil => simp [setA] at h; simp [h]
  | cons q rest ih =>
    obtain ⟨k2, w⟩ := q
    by_cases h2 : k = k2
    · subst h2
      simp [setA] at h
      rcases h with h | h
      · right; simp [h]
      · left; simp [h]
    · simp [setA, h2] at h
      rcases h with h | h
      · left; simp [h]
      · rcases ih h with h3 | h3
        · left; simp [h3]
        · right; exact h3

theorem lookupA_append {α β : Type} [DecidableEq α] (m1 m2 : List (α × β))
    (x : α) : lookupA (m1 ++ m2) x =
      match lookupA m1 x with
      | some v => some v
      | none => lookupA m2 x := by
  induction m1 with
  | nil => simp [lookupA]
  | cons p rest ih =>
    obtain ⟨k, v⟩ := p
    by_cases h : x = k <;> simp [lookupA, h, ih]

theorem setdefaultAll_cons (m : List (String × FSet)) (k : String)
    (ks : List String) :
    setdefaultAll m (k :: ks) =
      setdefaultAll (if (lookupA m k).isSome then m else m ++ [(k, ∅)]) ks :=
  rfl

theorem lookupA_setdefaultAll_eq_none_iff (ks : List String) :
    ∀ (m : List (String × FSet)) (x : String),
    lookupA (setdefaultAll m ks) x = none ↔
      lookupA m x = none ∧ x ∉ ks := by
  induction ks with
  | nil => intro m x; simp [setdefaultAll]
  | cons k rest ih =>
    intro m x
    rw [setdefaultAll_cons, ih]
    by_cases hk : (lookupA m k).isSome = true
    · rw [if_pos hk]
      simp only [List.mem_cons, not_or]
      constructor
      · rintro ⟨h1, h2⟩
        refine ⟨h1, ?_, h2⟩
        rintro rfl
        rw [h1] at hk
        simp at hk
      · rintro ⟨h1, _, h2⟩
        exact ⟨h1, h2⟩
    · rw [if_neg hk]
      have happ : lookupA (m ++ [(k, (∅ : FSet))]) x = none ↔
          lookupA m x = none ∧ x ≠ k := by
        rw [lookupA_append]
        rcases hl : lookupA m x with _ | v
        · by_cases hxk : x = k <;> simp [lookupA, hxk]
        · simp
      rw [happ]
      simp only [List.mem_cons, not_or]
      tauto

theorem lookupA_setdefaultAll_isSome_of_mem (m : List (String × FSet))
    (ks : List String) (x : String) (h : x ∈ ks) :
    (lookupA (setdefaultAll m ks) x).isSome = true := by
  rcases hl : lookupA (setdefaultAll m ks) x with _ | v
  · rw [lookupA_setdefaultAll_eq_none_iff] at hl
    exact absurd h hl.2
  · simp

theorem lookupA_setdefaultAll_isSome_mono (m : List (String × FSet))
    (ks : List String) (x : String) (h : (lookupA m x).isSome = true) :
    (lookupA (setdefaultAll m ks) x).isSome = true := by
  rcases hl : lookupA (setdefaultAll m ks) x with _ | v
  · rw [lookupA_setdefaultAll_eq_none_iff] at hl
    rw [hl.1] at h
    simp at h
  · simp

theorem setdefaultAll_mem (ks : List String) :
    ∀ (m : List (String × FSet)) (p : String × FSet),
    p ∈ setdefaultAll m ks → p ∈ m ∨ p.2 = ∅ := by
  induction ks with
  | nil => intro m p h; exact Or.inl h
  | cons k rest ih =>
    intro m p h
    rw [setdefaultAll_cons] at h
    by_cases hk : (lookupA m k).isSome = true
    · rw [if_pos hk] at h
      exact ih m p h
    · rw [if_neg hk] at h
      rcases ih _ p h with h2 | h2
      · rcases List.mem_append.mp h2 with h3 | h3
        · exact Or.inl h3
        · simp only [List.mem_singleton] at h3
          right
          rw [h3]
      · exact Or.inr h2

/-- `first(X)` on a cache hit returns the cached set and leaves the state
unchanged. -/
theorem firstF_cached (g : Grammar) (X : String) (σ : St) (n : Nat) (v : FSet)
    (h : lookupA σ.firstC X = some v) :
    firstF (n + 1) g X σ = some (v, σ) := by
  simp [firstF, h]

/-- `first_of_rhs(rhs)` on a cache hit returns the cached set and leaves
the state unchanged. -/
theorem firstOfRhsF_cached (g : Grammar) (rhs : List String) (σ : St)
    (n : Nat) (v : FSet) (h : lookupA σ.rhsC rhs = some v) :
    firstOfRhsF (n + 1) g rhs σ = some (v, σ) := by
  simp [firstOfRhsF, h]

/-- `first(X)` for a symbol with no productions: the lookup of the
production list defaults to `[]`, so the final result is the placeholder
empty set, recorded in the cache. -/
theorem firstF_unknown (g : Grammar) (X : String) (σ : St) (n : Nat)
    (h1 : lookupA g.productions X = none) (h2 : lookupA σ.firstC X = none) :
    firstF (n + 2) g X σ =
      some (∅, { σ with firstC := setA σ.firstC X ∅ }) := by
  show firstF (n + 1 + 1) g X σ = _
  simp [firstF, h2, prodsGet, h1, firstGoF, lookupA_setA_self]

/-! ## Claim theorems: C3, C7, C8, C9, C10 -/

/-- Claim C3: on the left-recursive grammar `S → S a | b` with start `S`,
`first('S')` terminates (fuel 9 suffices; the placeholder cache entry cuts
the recursion) and returns exactly the set `{b}` — in particular neither
`ε` nor anything else is a member. -/
theorem left_recursion_first_terminates :
    (firstF 9 (Grammar.init [("S", [["S", "a"], ["b"]])] "S") "S"
      initSt).map Prod.fst = some ({"b"} : FSet) := by decide

/-- Claim C7 counterexample: the grammar `S → Z` has a dangling
nonterminal-shaped reference `Z` (it is not structurally valid), yet
construction succeeds — the constructor stores the fields unvalidated —
and the FIRST analysis then runs without any error. -/
theorem construction_error_cex :
    validG (Grammar.init [("S", [["Z"]])] "S") = false ∧
    (Grammar.init [("S", [["Z"]])] "S").productions = [("S", [["Z"]])] ∧
    (Grammar.init [("S", [["Z"]])] "S").start = "S" ∧
    (firstF 9 (Grammar.init [("S", [["Z"]])] "S") "S" initSt).isSome
      = true := by decide

/-- Claim C7 (amended): construction performs no validation and always
succeeds, simply storing the productions and start symbol; when the start
symbol is not a key of the productions mapping, the failure surfaces only
later, as the `KeyError` (`none`) of `follow_all` on a fresh analyzer. -/
theorem construction_never_fails_amended
    (ps : List (String × List (List String))) (s : String) (fF fL : Nat)
    (h : lookupA ps s = none) :
    (Grammar.init ps s).productions = ps ∧ (Grammar.init ps s).start = s ∧
    followAllF fF fL (Grammar.init ps s) initSt = none := by
  refine ⟨rfl, rfl, ?_⟩
  have hstart : lookupA (setdefaultAll initSt.followC (ps.map Prod.fst)) s
      = none := by
    rw [lookupA_setdefaultAll_eq_none_iff]
    exact ⟨rfl, (lookupA_eq_none_iff ps s).mp h⟩
  simp only [followAllF, Grammar.init, hstart]

/-- Claim C7 witness: a concrete grammar whose start symbol `S` is not a
key; construction succeeds and `follow_all` fails. -/
theorem construction_never_fails_witness :
    (Grammar.init [("A", [["a"]])] "S").productions = [("A", [["a"]])] ∧
    (Grammar.init [("A", [["a"]])] "S").start = "S" ∧
    followAllF 20 20 (Grammar.init [("A", [["a"]])] "S") initSt = none :=
  construction_never_fails_amended [("A", [["a"]])] "S" 20 20 (by decide)

/-- Claim C8 counterexample: querying `first` for the nonterminal `Q`,
absent from the grammar `S → S a | b`, raises no error at all: it returns
the empty set (and caches it), instead of failing with an
`UnknownSymbolError`. -/
theorem first_unknown_error_cex :
    firstF 5 (Grammar.init [("S", [["S", "a"], ["b"]])] "S") "Q" initSt
      = some (∅, ⟨[("Q", ∅)], [], []⟩) := by decide

/-- Claim C8 (amended): `first(X)` for a nonterminal `X` that is not a key
of the productions mapping (and not yet cached) does not fail: it returns
a result, namely the empty set. -/
theorem first_unknown_returns_empty_amended (g : Grammar) (X : String)
    (σ : St) (n : Nat) (h1 : lookupA g.productions X = none)
    (h2 : lookupA σ.firstC X = none) :
    ∃ σ2, firstF (n + 2) g X σ = some (∅, σ2) :=
  ⟨_, firstF_unknown g X σ n h1 h2⟩

/-- Claim C8 witness: the amended claim at the unknown symbol `Q` of a
concrete one-production grammar. -/
theorem first_unknown_returns_empty_witness :
    ∃ σ2, firstF 2 (Grammar.init [("S", [["b"]])] "S") "Q" initSt
      = some (∅, σ2) :=
  first_unknown_returns_empty_amended (Grammar.init [("S", [["b"]])] "S")
    "Q" initSt 0 (by decide) (by decide)

/-- Claim C9 counterexample: the productions `A → []` and `A → ['ε']` are
distinct bodies of the same head, yet they render to the same production
key, and `prediction_sets` on the grammar holding both returns a mapping
with a single entry — the two productions collide. -/
theorem production_key_distinct_cex :
    prodKey "A" [] = prodKey "A" ["ε"] ∧
    (predictionSetsF 20 20
        (Grammar.init [("A", [([] : List String), ["ε"]])] "A")
        initSt).map (fun p => p.1.length) = some 1 := by decide

/-- Claim C9 (amended): the production key determines the pair (head,
rendered body): for a fixed head, two bodies receive distinct keys exactly
when their renderings differ; `[]` and `['ε']` render identically (both as
`ε`), so they share one key. -/
theorem production_key_render_inj_amended (A : String) (r r2 : List String)
    (h : renderRhs r ≠ renderRhs r2) : prodKey A r ≠ prodKey A r2 := by
  intro he
  apply h
  unfold prodKey at he
  have hd := congrArg String.data he
  simp only [String.data_append, List.append_assoc] at hd
  exact String.ext (List.append_cancel_left (List.append_cancel_left hd))

/-- Claim C9 witness: two concrete bodies with different renderings get
different keys. -/
theorem production_key_render_inj_witness :
    prodKey "A" ["x"] ≠ prodKey "A" ["y"] :=
  production_key_render_inj_amended "A" ["x"] ["y"] (by decide)

/-- Claim C10: `first(X)` for any symbol `X` that is not a key of the
productions mapping (and not yet cached) raises no error: the production
lookup defaults to an empty list of alternatives, so the call returns the
empty set and records exactly that empty set in the FIRST cache. -/
theorem first_unknown_default_cache (g : Grammar) (X : String) (σ : St)
    (n : Nat) (h1 : lookupA g.productions X = none)
    (h2 : lookupA σ.firstC X = none) :
    firstF (n + 2) g X σ =
      some (∅, { σ with firstC := setA σ.firstC X ∅ }) :=
  firstF_unknown g X σ n h1 h2

/-- Claim C10 witness: the unknown symbol `R` on a concrete grammar. -/
theorem first_unknown_default_cache_witness :
    firstF 2 (Grammar.init [("A", [["a"]])] "A") "R" initSt =
      some (∅, { initSt with firstC := setA initSt.firstC "R" ∅ }) :=
  first_unknown_default_cache (Grammar.init [("A", [["a"]])] "A") "R"
    initSt 0 (by decide) (by decide)

/-! ## Claim C2: the sequence scan versus its specification -/

/-- The scan loop on the empty list: the `for … else` clause adds `ε`. -/
theorem scanF_nil (g : Grammar) (acc : FSet) (σ : St) (m : Nat) :
    scanF (m + 1) g [] acc σ = some (insert EPS acc, σ) := rfl

/-- The scan loop on a leading terminal: add it and stop. -/
theorem scanF_cons_terminal (g : Grammar) (sym : String)
    (rest : List String) (acc : FSet) (σ : St) (m : Nat)
    (hnt : is_nonterminal sym = false) :
    scanF (m + 1) g (sym :: rest) acc σ = some (insert sym acc, σ) := by
  simp [scanF, hnt]

/-- The scan loop on a leading nonterminal whose FIRST is cached: union in
the cached set minus `ε` and continue exactly when `ε` is a member. -/
theorem scanF_cons_cached (g : Grammar) (sym : String) (rest : List String)
    (acc : FSet) (σ : St) (m : Nat) (v : FSet)
    (hnt : is_nonterminal sym = true) (hv : lookupA σ.firstC sym = some v) :
    scanF (m + 2) g (sym :: rest) acc σ =
      if EPS ∈ v then scanF (m + 1) g rest (acc ∪ v.erase EPS) σ
      else some (acc ∪ v.erase EPS, σ) := by
  show scanF (m + 1 + 1) g (sym :: rest) acc σ = _
  simp [scanF, hnt, firstF_cached g sym σ m v hv]

/-- When every nonterminal of the scanned symbols already has a FIRST cache
entry, the scan loop of `first_of_rhs` leaves the state unchanged and
computes exactly the specified left-to-right scan over the cached FIRST
values, together with the accumulated set. -/
theorem scanF_all_cached (g : Grammar) :
    ∀ (syms : List String) (acc : FSet) (σ : St) (n : Nat) (r : FSet)
      (σ2 : St),
    (∀ sym ∈ syms, is_nonterminal sym = true →
      (lookupA σ.firstC sym).isSome = true) →
    scanF n g syms acc σ = some (r, σ2) →
    σ2 = σ ∧
      r = acc ∪ firstOfSeqSpec (fun s => (lookupA σ.firstC s).getD ∅) syms := by
  intro syms
  induction syms with
  | nil =>
    intro acc σ n r σ2 _ h
    cases n with
    | zero => simp [scanF] at h
    | succ m =>
      rw [scanF_nil] at h
      simp at h
      obtain ⟨h1, h2⟩ := h
      subst h1
      subst h2
      refine ⟨rfl, ?_⟩
      rw [firstOfSeqSpec, Finset.union_comm, ← Finset.insert_eq]
  | cons sym rest ih =>
    intro acc σ n r σ2 hc h
    cases n with
    | zero => simp [scanF] at h
    | succ m =>
      by_cases hnt : is_nonterminal sym = false
      · rw [scanF_cons_terminal g sym rest acc σ m hnt] at h
        simp at h
        obtain ⟨h1, h2⟩ := h
        subst h1
        subst h2
        refine ⟨rfl, ?_⟩
        rw [show firstOfSeqSpec (fun s => (lookupA σ.firstC s).getD ∅)
            (sym :: rest) = {sym} by rw [firstOfSeqSpec, if_pos hnt]]
        rw [Finset.union_comm, ← Finset.insert_eq]
      · have hnt2 : is_nonterminal sym = true := by
          cases h3 : is_nonterminal sym
          · exact absurd h3 hnt
          · rfl
        obtain ⟨v, hv⟩ := Option.isSome_iff_exists.mp
          (hc sym (List.mem_cons_self sym rest) hnt2)
        cases m with
        | zero => simp [scanF, hnt2, firstF] at h
        | succ m2 =>
          rw [scanF_cons_cached g sym rest acc σ m2 v hnt2 hv] at h
          have hspec : firstOfSeqSpec
              (fun s => (lookupA σ.firstC s).getD ∅) (sym :: rest) =
              v.erase EPS ∪ (if EPS ∈ v then firstOfSeqSpec
                (fun s => (lookupA σ.firstC s).getD ∅) rest
              else (∅ : FSet)) := by
            rw [firstOfSeqSpec, if_neg (by simp [hnt2]), hv]
            simp
          rw [hspec]
          by_cases he : EPS ∈ v
          · rw [if_pos he] at h
            obtain ⟨hσ, hr⟩ := ih (acc ∪ v.erase EPS) σ (m2 + 1) r σ2
              (fun s hs ht => hc s (List.mem_cons_of_mem sym hs) ht) h
            refine ⟨hσ, ?_⟩
            rw [hr, if_pos he, Finset.union_assoc]
          · rw [if_neg he] at h
            simp at h
            obtain ⟨h1, h2⟩ := h
            refine ⟨h2.symm, ?_⟩
            rw [← h1, if_neg he]
            rw [Finset.union_empty]

/-- Claim C2 counterexample: on the grammar `S → S a | ε`, after computing
`first('S')` (which caches `FIRST('S') = {ε}` but leaves the stale entry
`∅` for the sequence `('S','a')` recorded while the placeholder was in
force), a call to `first_of_sequence(('S','a'))` returns the cached `∅`,
whereas the specified left-to-right scan over the analyzer's own FIRST
values yields `{a}`. -/
theorem first_of_rhs_scan_cex :
    ((firstF 9 (Grammar.init [("S", [["S", "a"], ["ε"]])] "S") "S"
        initSt).bind (fun p =>
          firstOfRhsF 9 (Grammar.init [("S", [["S", "a"], ["ε"]])] "S")
            ["S", "a"] p.2)).map Prod.fst = some (∅ : FSet) ∧
    (firstF 9 (Grammar.init [("S", [["S", "a"], ["ε"]])] "S") "S"
        initSt).map (fun p =>
          firstOfSeqSpec (fun s => (lookupA p.2.firstC s).getD ∅)
            ["S", "a"]) = some ({"a"} : FSet) ∧
    (∅ : FSet) ≠ {"a"} := by decide

/-- Claim C2 (amended): for every sequence `α` that is not already in the
sequence cache and all of whose nonterminal symbols already have a
(completed) FIRST cache entry, `first_of_sequence(α)` equals the specified
left-to-right scan computed from those cached FIRST values; with a stale
cache entry the call instead returns the cached value, which can differ. -/
theorem first_of_rhs_scan_amended (g : Grammar) (rhs : List String)
    (σ : St) (n : Nat) (r : FSet) (σ2 : St)
    (h0 : lookupA σ.rhsC rhs = none)
    (hc : ∀ sym ∈ rhs, is_nonterminal sym = true →
      (lookupA σ.firstC sym).isSome = true)
    (h : firstOfRhsF n g rhs σ = some (r, σ2)) :
    r = firstOfSeqSpec (fun s => (lookupA σ.firstC s).getD ∅) rhs := by
  cases n with
  | zero => simp [firstOfRhsF] at h
  | succ m =>
    by_cases he : rhs = []
    · subst he
      simp [firstOfRhsF, h0] at h
      rw [← h.1, firstOfSeqSpec]
    · rw [show firstOfRhsF (m + 1) g rhs σ =
          (match lookupA σ.rhsC rhs with
          | some s => some (s, σ)
          | none =>
            if rhs = [] then
              some ({EPS}, { σ with rhsC := setA σ.rhsC rhs {EPS} })
            else
              match scanF m g rhs ∅ σ with
              | none => none
              | some (r2, σ3) =>
                some (r2, { σ3 with rhsC := setA σ3.rhsC rhs r2 }))
          from rfl, h0, if_neg he] at h
      rcases hs : scanF m g rhs ∅ σ with _ | p
      · rw [hs] at h
        simp at h
      · obtain ⟨r2, σ3⟩ := p
        rw [hs] at h
        simp at h
        obtain ⟨hσ, hr⟩ := scanF_all_cached g rhs ∅ σ m r2 σ3 hc hs
        rw [← h.1, hr]
        simp

/-- Claim C2 witness: the amended claim applied to the fresh analyzer of
the grammar `S → b` and the purely terminal sequence `['b']`. -/
theorem first_of_rhs_scan_witness :
    ∃ r σ2, firstOfRhsF 5 (Grammar.init [("S", [["b"]])] "S") ["b"] initSt
        = some (r, σ2) ∧
      r = firstOfSeqSpec (fun s => (lookupA initSt.firstC s).getD ∅)
        ["b"] := by
  obtain ⟨⟨r, σ2⟩, h⟩ := Option.isSome_iff_exists.mp
    (show (firstOfRhsF 5 (Grammar.init [("S", [["b"]])] "S") ["b"]
        initSt).isSome = true by decide)
  exact ⟨r, σ2, h, first_of_rhs_scan_amended
    (Grammar.init [("S", [["b"]])] "S") ["b"] initSt 5 r σ2 (by decide)
    (by decide) h⟩

/-! ## State preservation by the FIRST stage -/

theorem firstF_succ_eq (n : Nat) (g : Grammar) (X : String) (σ : St) :
    firstF (n + 1) g X σ =
      match lookupA σ.firstC X with
      | some s => some (s, σ)
      | none =>
        match firstGoF n g X (prodsGet g X)
            { σ with firstC := setA σ.firstC X ∅ } with
        | none => none
        | some σ2 => some ((lookupA σ2.firstC X).getD ∅, σ2) := rfl

theorem firstGoF_cons_eq (n : Nat) (g : Grammar) (X : String)
    (alpha : List String) (rest : List (List String)) (σ : St) :
    firstGoF (n + 1) g X (alpha :: rest) σ =
      match firstOfRhsF n g alpha σ with
      | none => none
      | some (fa, σ2) => firstGoF n g X rest (goUpdate X fa σ2) := rfl

theorem firstOfRhsF_succ_eq (n : Nat) (g : Grammar) (rhs : List String)
    (σ : St) :
    firstOfRhsF (n + 1) g rhs σ =
      match lookupA σ.rhsC rhs with
      | some s => some (s, σ)
      | none =>
        if rhs = [] then
          some ({EPS}, { σ with rhsC := setA σ.rhsC rhs {EPS} })
        else
          match scanF n g rhs ∅ σ with
          | none => none
          | some (r, σ2) =>
            some (r, { σ2 with rhsC := setA σ2.rhsC rhs r }) := rfl

theorem scanF_cons_eq (n : Nat) (g : Grammar) (sym : String)
    (rest : List String) (acc : FSet) (σ : St) :
    scanF (n + 1) g (sym :: rest) acc σ =
      if is_nonterminal sym = false then some (insert sym acc, σ)
      else
        match firstF n g sym σ with
        | none => none
        | some (fs, σ2) =>
          if EPS ∈ fs then scanF n g rest (acc ∪ fs.erase EPS) σ2
          else some (acc ∪ fs.erase EPS, σ2) := rfl

theorem StPres.refl (σ : St) : StPres σ σ :=
  ⟨rfl, fun _ _ h => h, fun _ h => h⟩

theorem StPres.trans {σ1 σ2 σ3 : St} (h1 : StPres σ1 σ2)
    (h2 : StPres σ2 σ3) : StPres σ1 σ3 :=
  ⟨h2.1.trans h1.1, fun k v h => h2.2.1 k v (h1.2.1 k v h),
    fun X h => h2.2.2 X (h1.2.2 X h)⟩

/-- Writing a FIRST cache entry preserves the state in the `StPres`
sense. -/
theorem StPres.setFirst (σ : St) (X : String) (v : FSet) :
    StPres σ { σ with firstC := setA σ.firstC X v } :=
  ⟨rfl, fun _ _ h => h, fun Y h => lookupA_setA_isSome σ.firstC X v Y h⟩

theorem StPres.goUpdate (σ2 : St) (X : String) (fa : FSet) :
    StPres σ2 (FFP.goUpdate X fa σ2) :=
  StPres.setFirst σ2 X _

/-- Writing a sequence cache entry for a key that was absent at the start
of the operation preserves the state in the `StPres` sense, even when a
nested call has cached that key in the meantime. -/
theorem StPres.setRhsOver (σ σ3 : St) (rhs : List String) (v : FSet)
    (hp : StPres σ σ3) (h : lookupA σ.rhsC rhs = none) :
    StPres σ { σ3 with rhsC := setA σ3.rhsC rhs v } := by
  refine ⟨hp.1, ?_, hp.2.2⟩
  intro k w hk
  have hne : k ≠ rhs := by
    rintro rfl
    rw [h] at hk
    exact Option.noConfusion hk
  show lookupA (setA σ3.rhsC rhs v) k = some w
  rw [lookupA_setA_ne σ3.rhsC rhs v k hne]
  exact hp.2.1 k w hk

/-- Every complete FIRST-stage operation, at any fuel, preserves the state
in the `StPres` sense. -/
theorem firstPhase_pres :
    ∀ n : Nat,
    (∀ g X σ r σ2, firstF n g X σ = some (r, σ2) → StPres σ σ2) ∧
    (∀ g X alphas σ σ2, firstGoF n g X alphas σ = some σ2 → StPres σ σ2) ∧
    (∀ g rhs σ r σ2, firstOfRhsF n g rhs σ = some (r, σ2) → StPres σ σ2) ∧
    (∀ g syms acc σ r σ2, scanF n g syms acc σ = some (r, σ2) →
      StPres σ σ2) := by
  intro n
  induction n with
  | zero =>
    refine ⟨?_, ?_, ?_, ?_⟩
    · intro g X σ r σ2 h
      exact Option.noConfusion h
    · intro g X alphas σ σ2 h
      exact Option.noConfusion h
    · intro g rhs σ r σ2 h
      exact Option.noConfusion h
    · intro g syms acc σ r σ2 h
      exact Option.noConfusion h
  | succ m ih =>
    obtain ⟨ih1, ih2, ih3, ih4⟩ := ih
    refine ⟨?_, ?_, ?_, ?_⟩
    · intro g X σ r σ2 h
      rw [firstF_succ_eq] at h
      rcases hl : lookupA σ.firstC X with _ | s
      · rw [hl] at h
        rcases hg : firstGoF m g X (prodsGet g X)
            { σ with firstC := setA σ.firstC X ∅ } with _ | σ3
        · rw [hg] at h
          exact Option.noConfusion h
        · rw [hg] at h
          simp at h
          exact h.2 ▸ (StPres.setFirst σ X ∅).trans (ih2 _ _ _ _ _ hg)
      · rw [hl] at h
        simp at h
        exact h.2 ▸ StPres.refl σ
    · intro g X alphas σ σ2 h
      cases alphas with
      | nil =>
        have : σ2 = σ := by
          have h2 : (some σ : Option St) = some σ2 := h
          exact (Option.some.injEq _ _ ▸ h2).symm
        exact this ▸ StPres.refl σ
      | cons alpha rest =>
        rw [firstGoF_cons_eq] at h
        rcases hr : firstOfRhsF m g alpha σ with _ | p
        · rw [hr] at h
          exact Option.noConfusion h
        · obtain ⟨fa, σ3⟩ := p
          rw [hr] at h
          exact ((ih3 _ _ _ _ _ hr).trans (StPres.goUpdate σ3 X fa)).trans
            (ih2 _ _ _ _ _ h)
    · intro g rhs σ r σ2 h
      rw [firstOfRhsF_succ_eq] at h
      rcases hl : lookupA σ.rhsC rhs with _ | s
      · rw [hl] at h
        by_cases he : rhs = []
        · rw [if_pos he] at h
          simp at h
          exact h.2 ▸ StPres.setRhsOver σ σ rhs {EPS} (StPres.refl σ) hl
        · rw [if_neg he] at h
          rcases hs : scanF m g rhs ∅ σ with _ | p
          · rw [hs] at h
            exact Option.noConfusion h
          · obtain ⟨r2, σ3⟩ := p
            rw [hs] at h
            simp at h
            exact h.2 ▸ StPres.setRhsOver σ σ3 rhs r2 (ih4 _ _ _ _ _ _ hs) hl
      · rw [hl] at h
        simp at h
        exact h.2 ▸ StPres.refl σ
    · intro g syms acc σ r σ2 h
      cases syms with
      | nil =>
        have h2 : (some (insert EPS acc, σ) : Option (FSet × St))
            = some (r, σ2) := h
        simp at h2
        exact h2.2 ▸ StPres.refl σ
      | cons sym rest =>
        rw [scanF_cons_eq] at h
        by_cases hnt : is_nonterminal sym = false
        · rw [if_pos hnt] at h
          simp at h
          exact h.2 ▸ StPres.refl σ
        · rw [if_neg hnt] at h
          rcases hf : firstF m g sym σ with _ | p
          · rw [hf] at h
            exact Option.noConfusion h
          · obtain ⟨fs, σ3⟩ := p
            rw [hf] at h
            have h2 : (if EPS ∈ fs then
                scanF m g rest (acc ∪ fs.erase EPS) σ3
              else some (acc ∪ fs.erase EPS, σ3)) = some (r, σ2) := h
            by_cases he : EPS ∈ fs
            · rw [if_pos he] at h2
              exact (ih1 _ _ _ _ _ hf).trans (ih4 _ _ _ _ _ _ h2)
            · rw [if_neg he] at h2
              simp at h2
              exact h2.2 ▸ ih1 _ _ _ _ _ hf

/-! ## Monotonicity of the FOLLOW pass -/

theorem setA_setA {α β : Type} [DecidableEq α] (m : List (α × β)) (k : α)
    (v w : β) : setA (setA m k v) k w = setA m k w := by
  induction m with
  | nil => simp [setA]
  | cons p rest ih =>
    obtain ⟨k2, u⟩ := p
    by_cases h : k = k2 <;> simp [setA, h, ih]

theorem followLE_refl (m : List (String × FSet)) : followLE m m :=
  fun _ v h => ⟨v, h, Finset.Subset.refl v⟩

theorem followLE_trans {a b c : List (String × FSet)} (h1 : followLE a b)
    (h2 : followLE b c) : followLE a c := by
  intro X v hv
  obtain ⟨v2, hv2, hs2⟩ := h1 X v hv
  obtain ⟨v3, hv3, hs3⟩ := h2 X v2 hv2
  exact ⟨v3, hv3, hs2.trans hs3⟩

theorem followLE_of_eq {a b : List (String × FSet)} (h : a = b) :
    followLE a b := h ▸ followLE_refl a

/-- Replacing one FOLLOW entry by a superset grows the dictionary
pointwise. -/
theorem followLE_setA (m : List (String × FSet)) (B : String)
    (before after : FSet) (hb : lookupA m B = some before)
    (hs : before ⊆ after) : followLE m (setA m B after) := by
  intro X v hv
  by_cases hx : X = B
  · subst hx
    rw [hv] at hb
    have hvb : v = before := Option.some_inj.mp hb
    refine ⟨after, lookupA_setA_self m X after, ?_⟩
    rw [hvb]
    exact hs
  · refine ⟨v, ?_, Finset.Subset.refl v⟩
    rw [lookupA_setA_ne m B after X hx]
    exact hv

/-- Each step of the FOLLOW propagation loop only grows the FOLLOW
dictionary pointwise: no member is ever removed. -/
theorem followSymsF_mono (fF : Nat) (g : Grammar) (A : String) :
    ∀ (syms : List String) (σ : St) (c c2 : Bool) (σ2 : St),
    followSymsF fF g A syms σ c = some (c2, σ2) →
    followLE σ.followC σ2.followC := by
  intro syms
  induction syms with
  | nil =>
    intro σ c c2 σ2 h
    have h2 : (some (c, σ) : Option (Bool × St)) = some (c2, σ2) := h
    simp at h2
    exact followLE_of_eq (by rw [h2.2])
  | cons B tail ih =>
    intro σ c c2 σ2 h
    simp only [followSymsF] at h
    split at h
    · exact ih _ _ _ _ h
    · split at h
      · exact Option.noConfusion h
      · rename_i hnt p firstRest σ1 hr
        have hfol : σ1.followC = σ.followC :=
          ((firstPhase_pres fF).2.2.1 g tail σ firstRest σ1 hr).1
        split at h
        · exact Option.noConfusion h
        · rename_i before hb
          split at h
          · split at h
            · exact Option.noConfusion h
            · rename_i hcond fa ha
              rw [setA_setA] at h
              have hgrow : followLE σ.followC
                  (setA σ1.followC B
                    ((before ∪ firstRest.erase EPS) ∪ fa)) := by
                rw [← hfol]
                exact followLE_setA σ1.followC B before _ hb
                  (Finset.Subset.trans Finset.subset_union_left
                    Finset.subset_union_left)
              exact followLE_trans hgrow (ih _ _ _ _ h)
          · rename_i hcond
            have hgrow : followLE σ.followC
                (setA σ1.followC B (before ∪ firstRest.erase EPS)) := by
              rw [← hfol]
              exact followLE_setA σ1.followC B before _ hb
                Finset.subset_union_left
            exact followLE_trans hgrow (ih _ _ _ _ h)

/-- A whole right-hand side of a pass only grows the FOLLOW dictionary. -/
theorem followRhssF_mono (fF : Nat) (g : Grammar) (A : String) :
    ∀ (rhss : List (List String)) (σ : St) (c c2 : Bool) (σ2 : St),
    followRhssF fF g A rhss σ c = some (c2, σ2) →
    followLE σ.followC σ2.followC := by
  intro rhss
  induction rhss with
  | nil =>
    intro σ c c2 σ2 h
    have h2 : (some (c, σ) : Option (Bool × St)) = some (c2, σ2) := h
    simp at h2
    exact followLE_of_eq (by rw [h2.2])
  | cons rhs rest ih =>
    intro σ c c2 σ2 h
    simp only [followRhssF] at h
    split at h
    · exact Option.noConfusion h
    · rename_i p c3 σ3 hs
      exact followLE_trans (followSymsF_mono fF g A rhs σ c c3 σ3 hs)
        (ih _ _ _ _ h)

/-- A full pass of `follow_all` only grows the FOLLOW dictionary. -/
theorem followProdsF_mono (fF : Nat) (g : Grammar) :
    ∀ (ps : List (String × List (List String))) (σ : St) (c c2 : Bool)
      (σ2 : St),
    followProdsF fF g ps σ c = some (c2, σ2) →
    followLE σ.followC σ2.followC := by
  intro ps
  induction ps with
  | nil =>
    intro σ c c2 σ2 h
    have h2 : (some (c, σ) : Option (Bool × St)) = some (c2, σ2) := h
    simp at h2
    exact followLE_of_eq (by rw [h2.2])
  | cons p rest ih =>
    obtain ⟨A, rhss⟩ := p
    intro σ c c2 σ2 h
    simp only [followProdsF] at h
    split at h
    · exact Option.noConfusion h
    · rename_i q c3 σ3 hs
      exact followLE_trans (followRhssF_mono fF g A rhss σ c c3 σ3 hs)
        (ih _ _ _ _ h)

/-- The fixed-point loop of `follow_all` only grows the FOLLOW
dictionary. -/
theorem followLoopF_mono (fF : Nat) (g : Grammar) :
    ∀ (k : Nat) (σ : St) (σ2 : St),
    followLoopF fF g k σ = some σ2 →
    followLE σ.followC σ2.followC := by
  intro k
  induction k with
  | zero =>
    intro σ σ2 h
    exact Option.noConfusion h
  | succ m ih =>
    intro σ σ2 h
    simp only [followLoopF] at h
    split at h
    · exact Option.noConfusion h
    · rename_i p changed σ3 hp
      by_cases hc : changed = true
    -- the loop either recurses or stops here
      · rw [if_pos hc] at h
        exact followLE_trans (followProdsF_mono fF g g.productions σ false
          changed σ3 hp) (ih _ _ h)
      · rw [if_neg hc] at h
        simp at h
        subst h
        exact followProdsF_mono fF g g.productions σ false changed σ3 hp

/-- Claim C6: during `follow_all`'s fixed-point iteration every FollowSet
is monotone.  Each propagation step (one symbol handled by the inner loop,
i.e. one unfolding of `followSymsF`) and, a fortiori, the whole
`while changed` loop, only grow the FOLLOW dictionary pointwise: a member
once added is never removed. -/
theorem follow_step_monotone :
    (∀ (fF : Nat) (g : Grammar) (A : String) (syms : List String) (σ : St)
      (c c2 : Bool) (σ2 : St),
      followSymsF fF g A syms σ c = some (c2, σ2) →
      followLE σ.followC σ2.followC) ∧
    (∀ (fF : Nat) (g : Grammar) (k : Nat) (σ σ2 : St),
      followLoopF fF g k σ = some σ2 → followLE σ.followC σ2.followC) :=
  ⟨fun fF g A syms σ c c2 σ2 h => followSymsF_mono fF g A syms σ c c2 σ2 h,
   fun fF g k σ σ2 h => followLoopF_mono fF g k σ σ2 h⟩

/-- Claim C6 witness: a concrete propagation step on a two-entry FOLLOW
dictionary; the entry of `A` keeps its member `$`. -/
theorem follow_step_monotone_witness :
    ∃ c2 σ2, followSymsF 9 (Grammar.init [("A", [["B"]]), ("B", [])] "A")
        "A" ["B"] ⟨[], [], [("A", {"$"}), ("B", ∅)]⟩ false
        = some (c2, σ2) ∧
      ∃ v2, lookupA σ2.followC "A" = some v2 ∧ ({"$"} : FSet) ⊆ v2 := by
  obtain ⟨⟨c2, σ2⟩, h⟩ := Option.isSome_iff_exists.mp
    (show (followSymsF 9 (Grammar.init [("A", [["B"]]), ("B", [])] "A")
      "A" ["B"] ⟨[], [], [("A", {"$"}), ("B", ∅)]⟩ false).isSome = true
      by decide)
  exact ⟨c2, σ2, h, follow_step_monotone.1 9 _ "A" ["B"] _ false c2 σ2 h
    "A" {"$"} (by decide)⟩

/-- Claim C5: whenever `follow_all()` returns, the returned mapping
contains `$` as a member of the entry of the start nonterminal: `$` is
seeded there before the loop and the loop never removes members. -/
theorem dollar_in_follow_start (fF fL : Nat) (g : Grammar) (σ0 σ2 : St)
    (h : followAllF fF fL g σ0 = some σ2) :
    ∃ s, lookupA σ2.followC g.start = some s ∧ DOLLAR ∈ s := by
  simp only [followAllF] at h
  rcases hl : lookupA (setdefaultAll σ0.followC
      (g.productions.map Prod.fst)) g.start with _ | s0
  · rw [hl] at h
    exact Option.noConfusion h
  · rw [hl] at h
    have hstart : lookupA (setA (setdefaultAll σ0.followC
        (g.productions.map Prod.fst)) g.start (insert DOLLAR s0)) g.start
        = some (insert DOLLAR s0) :=
      lookupA_setA_self _ g.start (insert DOLLAR s0)
    obtain ⟨v2, hv2, hs⟩ := followLoopF_mono fF g fL _ σ2 h g.start
      (insert DOLLAR s0) hstart
    exact ⟨v2, hv2, hs (Finset.mem_insert_self DOLLAR s0)⟩

/-- Claim C5 witness: the concrete grammar `S → a`; `follow_all`
terminates and `$ ∈ FOLLOW(S)`. -/
theorem dollar_in_follow_start_witness :
    ∃ σ2 s, followAllF 20 20 (Grammar.init [("S", [["a"]])] "S") initSt
        = some σ2 ∧ lookupA σ2.followC "S" = some s ∧ DOLLAR ∈ s := by
  obtain ⟨σ2, h⟩ := Option.isSome_iff_exists.mp
    (show (followAllF 20 20 (Grammar.init [("S", [["a"]])] "S")
      initSt).isSome = true by decide)
  obtain ⟨s, hs, hd⟩ := dollar_in_follow_start 20 20
    (Grammar.init [("S", [["a"]])] "S") initSt σ2 h
  exact ⟨σ2, s, h, hs, hd⟩

/-! ## Claim C1: the PREDICT composition law -/

theorem firstOfRhsF_zero (g : Grammar) (rhs : List String) (σ : St) :
    firstOfRhsF 0 g rhs σ = none := rfl

/-- A successful `first_of_rhs` call leaves its result in the sequence
cache under its own key. -/
theorem firstOfRhsF_caches (n : Nat) (g : Grammar) (rhs : List String)
    (σ : St) (r : FSet) (σ2 : St) (h : firstOfRhsF n g rhs σ = some (r, σ2)) :
    lookupA σ2.rhsC rhs = some r := by
  cases n with
  | zero => exact Option.noConfusion h
  | succ m =>
    rw [firstOfRhsF_succ_eq] at h
    rcases hl : lookupA σ.rhsC rhs with _ | s
    · rw [hl] at h
      by_cases he : rhs = []
      · rw [if_pos he] at h
        simp at h
        rw [← h.2, ← h.1]
        exact lookupA_setA_self σ.rhsC rhs {EPS}
      · rw [if_neg he] at h
        rcases hs : scanF m g rhs ∅ σ with _ | p
        · rw [hs] at h
          exact Option.noConfusion h
        · obtain ⟨r2, σ3⟩ := p
          rw [hs] at h
          simp at h
          rw [← h.2, ← h.1]
          exact lookupA_setA_self σ3.rhsC rhs r2
    · rw [hl] at h
      simp at h
      rw [← h.2, ← h.1]
      exact hl

theorem predRhssF_cons_eq (fF : Nat) (g : Grammar) (A : String)
    (rhs : List String) (rest : List (List String))
    (preds : List (String × FSet)) (σ : St) :
    predRhssF fF g A (rhs :: rest) preds σ =
      match firstOfRhsF fF g rhs σ with
      | none => none
      | some (fr, σ1) =>
        if EPS ∈ fr then
          match lookupA σ1.followC A with
          | none => none
          | some fa =>
            predRhssF fF g A rest
              (setA preds (prodKey A rhs) (fr.erase EPS ∪ fa)) σ1
        else
          predRhssF fF g A rest
            (setA preds (prodKey A rhs) (fr.erase EPS)) σ1 := rfl

theorem predProdsF_cons_eq (fF : Nat) (g : Grammar) (A : String)
    (rhss : List (List String)) (rest : List (String × List (List String)))
    (preds : List (String × FSet)) (σ : St) :
    predProdsF fF g ((A, rhss) :: rest) preds σ =
      match predRhssF fF g A rhss preds σ with
      | none => none
      | some (preds2, σ2) => predProdsF fF g rest preds2 σ2 := rfl

/-- The per-head prediction loop preserves the state in the `StPres`
sense. -/
theorem predRhssF_pres (fF : Nat) (g : Grammar) (A : String) :
    ∀ (rhss : List (List String)) (preds : List (String × FSet)) (σ : St)
      (preds2 : List (String × FSet)) (σ2 : St),
    predRhssF fF g A rhss preds σ = some (preds2, σ2) → StPres σ σ2 := by
  intro rhss
  induction rhss with
  | nil =>
    intro preds σ preds2 σ2 h
    have h2 : (some (preds, σ) : Option (List (String × FSet) × St))
        = some (preds2, σ2) := h
    simp at h2
    exact h2.2 ▸ StPres.refl σ
  | cons rhs rest ih =>
    intro preds σ preds2 σ2 h
    rw [predRhssF_cons_eq] at h
    rcases hr : firstOfRhsF fF g rhs σ with _ | p
    · rw [hr] at h
      exact Option.noConfusion h
    · obtain ⟨fr, σ1⟩ := p
      rw [hr] at h
      have h2 : (if EPS ∈ fr then
          (match lookupA σ1.followC A with
          | none => none
          | some fa => predRhssF fF g A rest
              (setA preds (prodKey A rhs) (fr.erase EPS ∪ fa)) σ1)
        else predRhssF fF g A rest
          (setA preds (prodKey A rhs) (fr.erase EPS)) σ1)
          = some (preds2, σ2) := h
      have hp1 : StPres σ σ1 := (firstPhase_pres fF).2.2.1 g rhs σ fr σ1 hr
      by_cases he : EPS ∈ fr
      · rw [if_pos he] at h2
        rcases hfa : lookupA σ1.followC A with _ | fa
        · rw [hfa] at h2
          exact Option.noConfusion h2
        · rw [hfa] at h2
          exact hp1.trans (ih _ _ _ _ h2)
      · rw [if_neg he] at h2
        exact hp1.trans (ih _ _ _ _ h2)

/-- The outer prediction loop preserves the state in the `StPres` sense. -/
theorem predProdsF_pres (fF : Nat) (g : Grammar) :
    ∀ (ps : List (String × List (List String)))
      (preds : List (String × FSet)) (σ : St)
      (preds2 : List (String × FSet)) (σ2 : St),
    predProdsF fF g ps preds σ = some (preds2, σ2) → StPres σ σ2 := by
  intro ps
  induction ps with
  | nil =>
    intro preds σ preds2 σ2 h
    have h2 : (some (preds, σ) : Option (List (String × FSet) × St))
        = some (preds2, σ2) := h
    simp at h2
    exact h2.2 ▸ StPres.refl σ
  | cons p rest ih =>
    obtain ⟨A, rhss⟩ := p
    intro preds σ preds2 σ2 h
    rw [predProdsF_cons_eq] at h
    rcases hr : predRhssF fF g A rhss preds σ with _ | q
    · rw [hr] at h
      exact Option.noConfusion h
    · obtain ⟨preds1, σ1⟩ := q
      rw [hr] at h
      exact (predRhssF_pres fF g A rhss preds σ preds1 σ1 hr).trans
        (ih _ _ _ _ h)

/-- The per-head prediction loop never touches an entry of the prediction
dictionary whose key is not among the keys of the processed productions. -/
theorem predRhssF_keys (fF : Nat) (g : Grammar) (A : String) :
    ∀ (rhss : List (List String)) (preds : List (String × FSet)) (σ : St)
      (preds2 : List (String × FSet)) (σ2 : St) (key : String),
    predRhssF fF g A rhss preds σ = some (preds2, σ2) →
    key ∉ rhss.map (prodKey A) →
    lookupA preds2 key = lookupA preds key := by
  intro rhss
  induction rhss with
  | nil =>
    intro preds σ preds2 σ2 key h _
    have h2 : (some (preds, σ) : Option (List (String × FSet) × St))
        = some (preds2, σ2) := h
    simp at h2
    rw [h2.1]
  | cons rhs rest ih =>
    intro preds σ preds2 σ2 key h hkey
    simp only [List.map_cons, List.mem_cons, not_or] at hkey
    rw [predRhssF_cons_eq] at h
    rcases hr : firstOfRhsF fF g rhs σ with _ | p
    · rw [hr] at h
      exact Option.noConfusion h
    · obtain ⟨fr, σ1⟩ := p
      rw [hr] at h
      have h2 : (if EPS ∈ fr then
          (match lookupA σ1.followC A with
          | none => none
          | some fa => predRhssF fF g A rest
              (setA preds (prodKey A rhs) (fr.erase EPS ∪ fa)) σ1)
        else predRhssF fF g A rest
          (setA preds (prodKey A rhs) (fr.erase EPS)) σ1)
          = some (preds2, σ2) := h
      by_cases he : EPS ∈ fr
      · rw [if_pos he] at h2
        rcases hfa : lookupA σ1.followC A with _ | fa
        · rw [hfa] at h2
          exact Option.noConfusion h2
        · rw [hfa] at h2
          rw [ih _ _ _ _ _ h2 hkey.2,
            lookupA_setA_ne preds (prodKey A rhs) _ key hkey.1]
      · rw [if_neg he] at h2
        rw [ih _ _ _ _ _ h2 hkey.2,
          lookupA_setA_ne preds (prodKey A rhs) _ key hkey.1]

/-- The outer prediction loop never touches an entry of the prediction
dictionary whose key is not among the keys of the processed productions. -/
theorem predProdsF_keys (fF : Nat) (g : Grammar) :
    ∀ (ps : List (String × List (List String)))
      (preds : List (String × FSet)) (σ : St)
      (preds2 : List (String × FSet)) (σ2 : St) (key : String),
    predProdsF fF g ps preds σ = some (preds2, σ2) →
    key ∉ (ps.map (fun p => p.2.map (prodKey p.1))).flatten →
    lookupA preds2 key = lookupA preds key := by
  intro ps
  induction ps with
  | nil =>
    intro preds σ preds2 σ2 key h _
    have h2 : (some (preds, σ) : Option (List (String × FSet) × St))
        = some (preds2, σ2) := h
    simp at h2
    rw [h2.1]
  | cons p rest ih =>
    obtain ⟨A, rhss⟩ := p
    intro preds σ preds2 σ2 key h hkey
    simp only [List.map_cons, List.flatten_cons, List.mem_append,
      not_or] at hkey
    rw [predProdsF_cons_eq] at h
    rcases hr : predRhssF fF g A rhss preds σ with _ | q
    · rw [hr] at h
      exact Option.noConfusion h
    · obtain ⟨preds1, σ1⟩ := q
      rw [hr] at h
      rw [ih _ _ _ _ _ h hkey.2,
        predRhssF_keys fF g A rhss preds σ preds1 σ1 key hr hkey.1]

/-- After the per-head prediction loop has processed a production, the
prediction dictionary holds, under that production's key, exactly the set
prescribed by the PREDICT rule, recomputable from the final caches: the
FIRST of the body is a pure cache hit on the final state, and the FOLLOW
entry of the head is read from the final follow dictionary. -/
theorem predRhssF_records (fF : Nat) (g : Grammar) (A : String) :
    ∀ (rhss : List (List String)) (preds : List (String × FSet)) (σ : St)
      (preds2 : List (String × FSet)) (σ2 : St) (rhs : List String),
    predRhssF fF g A rhss preds σ = some (preds2, σ2) →
    rhs ∈ rhss →
    (rhss.map (prodKey A)).Nodup →
    (lookupA σ.followC A).isSome = true →
    ∃ fr fa, firstOfRhsF fF g rhs σ2 = some (fr, σ2) ∧
      lookupA σ2.followC A = some fa ∧
      lookupA preds2 (prodKey A rhs)
        = some (if EPS ∈ fr then fr.erase EPS ∪ fa else fr.erase EPS) := by
  intro rhss
  induction rhss with
  | nil =>
    intro preds σ preds2 σ2 rhs _ hmem
    simp at hmem
  | cons rhs0 rest ih =>
    intro preds σ preds2 σ2 rhs h hmem hnodup hsome
    rw [predRhssF_cons_eq] at h
    rcases hr : firstOfRhsF fF g rhs0 σ with _ | p
    · rw [hr] at h
      exact Option.noConfusion h
    · obtain ⟨fr0, σa⟩ := p
      rw [hr] at h
      obtain ⟨m, rfl⟩ : ∃ m, fF = m + 1 := by
        cases fF with
        | zero => rw [firstOfRhsF_zero] at hr; exact Option.noConfusion hr
        | succ m => exact ⟨m, rfl⟩
      have h2 : (if EPS ∈ fr0 then
          (match lookupA σa.followC A with
          | none => none
          | some fa => predRhssF (m + 1) g A rest
              (setA preds (prodKey A rhs0) (fr0.erase EPS ∪ fa)) σa)
        else predRhssF (m + 1) g A rest
          (setA preds (prodKey A rhs0) (fr0.erase EPS)) σa)
          = some (preds2, σ2) := h
      have hfolA : σa.followC = σ.followC :=
        ((firstPhase_pres (m + 1)).2.2.1 g rhs0 σ fr0 σa hr).1
      have hcach : lookupA σa.rhsC rhs0 = some fr0 :=
        firstOfRhsF_caches (m + 1) g rhs0 σ fr0 σa hr
      have hnodup2 : (prodKey A rhs0 :: rest.map (prodKey A)).Nodup := by
        rw [List.map_cons] at hnodup
        exact hnodup
      have hnd := List.nodup_cons.mp hnodup2
      by_cases he : EPS ∈ fr0
      · rw [if_pos he] at h2
        rcases hfa : lookupA σa.followC A with _ | fa0
        · rw [hfa] at h2
          exact Option.noConfusion h2
        · rw [hfa] at h2
          rcases List.mem_cons.mp hmem with hq | hq
          · subst hq
            have hpres := predRhssF_pres (m + 1) g A rest _ σa preds2 σ2 h2
            have hc2 : lookupA σ2.rhsC rhs = some fr0 :=
              hpres.2.1 rhs fr0 hcach
            refine ⟨fr0, fa0, firstOfRhsF_cached g rhs σ2 m fr0 hc2, ?_, ?_⟩
            · rw [hpres.1, hfa]
            · rw [predRhssF_keys (m + 1) g A rest _ σa preds2 σ2
                (prodKey A rhs) h2 hnd.1, lookupA_setA_self, if_pos he]
          · exact ih _ σa preds2 σ2 rhs h2 hq hnd.2
              (by rw [hfolA]; exact hsome)
      · rw [if_neg he] at h2
        rcases List.mem_cons.mp hmem with hq | hq
        · subst hq
          have hpres := predRhssF_pres (m + 1) g A rest _ σa preds2 σ2 h2
          have hc2 : lookupA σ2.rhsC rhs = some fr0 :=
            hpres.2.1 rhs fr0 hcach
          have hsome2 : (lookupA σ2.followC A).isSome = true := by
            rw [hpres.1, hfolA]
            exact hsome
          obtain ⟨fa0, hfa0⟩ := Option.isSome_iff_exists.mp hsome2
          refine ⟨fr0, fa0, firstOfRhsF_cached g rhs σ2 m fr0 hc2, hfa0, ?_⟩
          rw [predRhssF_keys (m + 1) g A rest _ σa preds2 σ2
            (prodKey A rhs) h2 hnd.1, lookupA_setA_self, if_neg he]
        · exact ih _ σa preds2 σ2 rhs h2 hq hnd.2
            (by rw [hfolA]; exact hsome)

/-- Extension of `predRhssF_records` through the outer prediction loop. -/
theorem predProdsF_records (fF : Nat) (g : Grammar) :
    ∀ (ps : List (String × List (List String)))
      (preds : List (String × FSet)) (σ : St)
      (preds2 : List (String × FSet)) (σ2 : St) (A : String)
      (rhss : List (List String)) (rhs : List String),
    predProdsF fF g ps preds σ = some (preds2, σ2) →
    (A, rhss) ∈ ps → rhs ∈ rhss →
    ((ps.map (fun p => p.2.map (prodKey p.1))).flatten).Nodup →
    (∀ p ∈ ps, (lookupA σ.followC p.1).isSome = true) →
    ∃ fr fa, firstOfRhsF fF g rhs σ2 = some (fr, σ2) ∧
      lookupA σ2.followC A = some fa ∧
      lookupA preds2 (prodKey A rhs)
        = some (if EPS ∈ fr then fr.erase EPS ∪ fa else fr.erase EPS) := by
  intro ps
  induction ps with
  | nil =>
    intro preds σ preds2 σ2 A rhss rhs _ hmem
    simp at hmem
  | cons p rest ih =>
    obtain ⟨A0, rhss0⟩ := p
    intro preds σ preds2 σ2 A rhss rhs h hmem hrhs hnodup hsome
    rw [predProdsF_cons_eq] at h
    rcases hr : predRhssF fF g A0 rhss0 preds σ with _ | q
    · rw [hr] at h
      exact Option.noConfusion h
    · obtain ⟨preds1, σb⟩ := q
      rw [hr] at h
      have hfolb : σb.followC = σ.followC :=
        (predRhssF_pres fF g A0 rhss0 preds σ preds1 σb hr).1
      have hnd : (rhss0.map (prodKey A0)).Nodup ∧
          ((rest.map (fun p => p.2.map (prodKey p.1))).flatten).Nodup ∧
          (rhss0.map (prodKey A0)).Disjoint
            ((rest.map (fun p => p.2.map (prodKey p.1))).flatten) := by
        rw [List.map_cons, List.flatten_cons, List.nodup_append] at hnodup
        exact hnodup
      rcases List.mem_cons.mp hmem with hq | hq
      · have hA : A = A0 := congrArg Prod.fst hq
        have hrhss : rhss = rhss0 := congrArg Prod.snd hq
        subst hA
        subst hrhss
        obtain ⟨fr, fa, hrec, hfol, hpred⟩ :=
          predRhssF_records fF g A rhss preds σ preds1 σb rhs hr hrhs
            hnd.1 (hsome (A, rhss) (List.mem_cons_self _ _))
        obtain ⟨m, rfl⟩ : ∃ m, fF = m + 1 := by
          cases fF with
          | zero => rw [firstOfRhsF_zero] at hrec; exact Option.noConfusion hrec
          | succ m => exact ⟨m, rfl⟩
        have hcach : lookupA σb.rhsC rhs = some fr :=
          firstOfRhsF_caches (m + 1) g rhs σb fr σb hrec
        have hpres := predProdsF_pres (m + 1) g rest preds1 σb preds2 σ2 h
        have hc2 : lookupA σ2.rhsC rhs = some fr := hpres.2.1 rhs fr hcach
        refine ⟨fr, fa, firstOfRhsF_cached g rhs σ2 m fr hc2, ?_, ?_⟩
        · rw [hpres.1, hfol]
        · rw [predProdsF_keys (m + 1) g rest preds1 σb preds2 σ2
            (prodKey A rhs) h ?_, hpred]
          intro hin
          exact hnd.2.2 (List.mem_map_of_mem (prodKey A) hrhs) hin
      · refine ih preds1 σb preds2 σ2 A rhss rhs h hq hrhs hnd.2.1 ?_
        intro p2 hp2
        rw [hfolb]
        exact hsome p2 (List.mem_cons_of_mem _ hp2)

/-- Whatever `follow_all` returns owns a FOLLOW entry for every head of the
grammar (`setdefault` seeds them and the loop never drops entries). -/
theorem followAllF_domain (fF fL : Nat) (g : Grammar) (σ0 σ2 : St)
    (h : followAllF fF fL g σ0 = some σ2) :
    ∀ X ∈ g.productions.map Prod.fst,
      (lookupA σ2.followC X).isSome = true := by
  simp only [followAllF] at h
  rcases hl : lookupA (setdefaultAll σ0.followC
      (g.productions.map Prod.fst)) g.start with _ | s0
  · rw [hl] at h
    exact Option.noConfusion h
  · rw [hl] at h
    intro X hX
    have h1 : (lookupA (setdefaultAll σ0.followC
        (g.productions.map Prod.fst)) X).isSome = true :=
      lookupA_setdefaultAll_isSome_of_mem σ0.followC _ X hX
    have h2 : (lookupA (setA (setdefaultAll σ0.followC
        (g.productions.map Prod.fst)) g.start (insert DOLLAR s0))
        X).isSome = true :=
      lookupA_setA_isSome _ g.start (insert DOLLAR s0) X h1
    obtain ⟨v, hv⟩ := Option.isSome_iff_exists.mp h2
    obtain ⟨v2, hv2, _⟩ := followLoopF_mono fF g fL _ σ2 h X v hv
    rw [hv2]
    rfl

/-- Claim C1 counterexample: in the grammar with the two productions
`A → 'x y'` and `A → x y` (the first body is the single space-containing
terminal `'x y'`, the second is the two terminals `x` and `y`), the two
productions render to the same key, so the returned mapping holds only the
second one's PREDICT set `{x}` under that key — while recomputing
`FIRST('x y') - {ε}` from the returned caches gives `{'x y'}` (with
`ε ∉ FIRST`, so the rule's value is `{'x y'}`), which differs. -/
theorem predict_composition_cex :
    ((predictionSetsF 20 20
        (Grammar.init [("A", [["x y"], ["x", "y"]])] "A") initSt).bind
      (fun p => (firstOfRhsF 20
          (Grammar.init [("A", [["x y"], ["x", "y"]])] "A") ["x y"]
          p.2).map
        (fun q => (lookupA p.1 (prodKey "A" ["x y"]), q.1))))
      = some (some {"x"}, {"x y"}) ∧
    ({"x"} : FSet) ≠ {"x y"} ∧ EPS ∉ ({"x y"} : FSet) := by decide

/-- Claim C1 (amended): whenever the production keys of the grammar are
pairwise distinct, the mapping returned by `prediction_sets()` satisfies
the PREDICT composition law for every production (A → α), recomputably
from the returned caches: the entry under the production's key equals
`FIRST(α) - {ε}`, united with the returned `FOLLOW(A)` exactly when
`ε ∈ FIRST(α)`, where `FIRST(α)` recomputed on the final state is a pure
cache hit (it returns the final state unchanged). -/
theorem predict_composition_amended (fF fL : Nat) (g : Grammar) (σ0 : St)
    (preds : List (String × FSet)) (σf : St) (A : String)
    (rhss : List (List String)) (rhs : List String)
    (hnd : (prodKeys g).Nodup)
    (h : predictionSetsF fF fL g σ0 = some (preds, σf))
    (hA : (A, rhss) ∈ g.productions) (hr : rhs ∈ rhss) :
    ∃ fr fa, firstOfRhsF fF g rhs σf = some (fr, σf) ∧
      lookupA σf.followC A = some fa ∧
      lookupA preds (prodKey A rhs)
        = some (if EPS ∈ fr then fr.erase EPS ∪ fa else fr.erase EPS) := by
  unfold predictionSetsF at h
  rcases hfo : followAllF fF fL g σ0 with _ | σ1
  · rw [hfo] at h
    exact Option.noConfusion h
  · rw [hfo] at h
    refine predProdsF_records fF g g.productions [] σ1 preds σf A rhss rhs
      h hA hr hnd ?_
    intro p hp
    exact followAllF_domain fF fL g σ0 σ1 hfo p.1
      (List.mem_map_of_mem Prod.fst hp)

/-- Claim C1 witness: the spec's concrete grammar `S → A b | c`, `A → ε`
(whose production keys are pairwise distinct), at the production
`S → A b`. -/
theorem predict_composition_witness :
    ∃ preds σf fr fa,
      predictionSetsF 20 20
        (Grammar.init [("S", [["A", "b"], ["c"]]), ("A", [["ε"]])] "S")
        initSt = some (preds, σf) ∧
      firstOfRhsF 20
        (Grammar.init [("S", [["A", "b"], ["c"]]), ("A", [["ε"]])] "S")
        ["A", "b"] σf = some (fr, σf) ∧
      lookupA σf.followC "S" = some fa ∧
      lookupA preds (prodKey "S" ["A", "b"])
        = some (if EPS ∈ fr then fr.erase EPS ∪ fa else fr.erase EPS) := by
  obtain ⟨⟨preds, σf⟩, h⟩ := Option.isSome_iff_exists.mp
    (show (predictionSetsF 20 20
      (Grammar.init [("S", [["A", "b"], ["c"]]), ("A", [["ε"]])] "S")
      initSt).isSome = true by decide)
  obtain ⟨fr, fa, h1, h2, h3⟩ := predict_composition_amended 20 20
    (Grammar.init [("S", [["A", "b"], ["c"]]), ("A", [["ε"]])] "S")
    initSt preds σf "S" [["A", "b"], ["c"]] ["A", "b"] (by decide) h
    (by decide) (by decide)
  exact ⟨preds, σf, fr, fa, h, h1, h2, h3⟩

/-! ## Claim C4, stage 1: the measure and the grammar bounds -/

theorem mem_domFC (σ : St) (X : String) :
    X ∈ domFC σ ↔ (lookupA σ.firstC X).isSome = true := by
  rw [domFC, List.mem_toFinset, lookupA_isSome_iff]

theorem domFC_subset_of_pres {σ σ2 : St} (h : StPres σ σ2) :
    domFC σ ⊆ domFC σ2 := by
  intro X hX
  rw [mem_domFC] at hX ⊢
  exact h.2.2 X hX

theorem muF_le_of_pres (g : Grammar) {σ σ2 : St} (h : StPres σ σ2) :
    muF g σ2 ≤ muF g σ := by
  apply Finset.card_le_card
  exact Finset.sdiff_subset_sdiff (Finset.Subset.refl _)
    (domFC_subset_of_pres h)

theorem muF_le_card (g : Grammar) (σ : St) : muF g σ ≤ (uSet g).card :=
  Finset.card_le_card (Finset.sdiff_subset)

theorem muF_insert_lt (g : Grammar) (σ : St) (X : String) (v : FSet)
    (hX : X ∈ uSet g) (hnone : lookupA σ.firstC X = none) :
    muF g { σ with firstC := setA σ.firstC X v } < muF g σ := by
  apply Finset.card_lt_card
  constructor
  · apply Finset.sdiff_subset_sdiff (Finset.Subset.refl _)
    intro Y hY
    rw [mem_domFC] at hY ⊢
    exact lookupA_setA_isSome σ.firstC X v Y hY
  · intro hsub
    have hXin : X ∈ uSet g \ domFC σ := by
      rw [Finset.mem_sdiff, mem_domFC]
      refine ⟨hX, ?_⟩
      rw [hnone]
      simp
    have hXout := hsub hXin
    rw [Finset.mem_sdiff, mem_domFC] at hXout
    exact hXout.2 (by
      show (lookupA (setA σ.firstC X v) X).isSome = true
      rw [lookupA_setA_self]
      rfl)

theorem prodsGet_length_le (g : Grammar) (X : String) :
    (prodsGet g X).length ≤ lenB g := by
  unfold prodsGet
  rcases hl : lookupA g.productions X with _ | rhss
  · simp
  · simp only [Option.getD_some]
    have hmem := mem_of_lookupA_eq_some hl
    have : rhss.length + (rhss.map List.length).sum ≤ lenB g := by
      unfold lenB
      exact List.single_le_sum (fun x _ => Nat.zero_le x) _
        (List.mem_map_of_mem _ hmem)
    omega

theorem mem_prodsGet_length_le (g : Grammar) (X : String)
    (alpha : List String) (h : alpha ∈ prodsGet g X) :
    alpha.length ≤ lenB g := by
  unfold prodsGet at h
  rcases hl : lookupA g.productions X with _ | rhss
  · rw [hl] at h
    simp at h
  · rw [hl] at h
    simp only [Option.getD_some] at h
    have hmem := mem_of_lookupA_eq_some hl
    have h1 : alpha.length ≤ (rhss.map List.length).sum :=
      List.single_le_sum (fun x _ => Nat.zero_le x) _
        (List.mem_map_of_mem _ h)
    have h2 : rhss.length + (rhss.map List.length).sum ≤ lenB g := by
      unfold lenB
      exact List.single_le_sum (fun x _ => Nat.zero_le x) _
        (List.mem_map_of_mem _ hmem)
    omega

theorem mem_prodsGet_syms (g : Grammar) (X : String) (alpha : List String)
    (sym : String) (ha : alpha ∈ prodsGet g X) (hs : sym ∈ alpha) :
    sym ∈ symbolsF g := by
  unfold prodsGet at ha
  rcases hl : lookupA g.productions X with _ | rhss
  · rw [hl] at ha
    simp at ha
  · rw [hl] at ha
    simp only [Option.getD_some] at ha
    have hmem := mem_of_lookupA_eq_some hl
    unfold symbolsF
    rw [List.mem_toFinset, List.mem_flatten]
    refine ⟨rhss.flatten, List.mem_map_of_mem _ hmem, ?_⟩
    rw [List.mem_flatten]
    exact ⟨alpha, ha, hs⟩

/-- Every symbol of every body belongs to the symbol universe. -/
theorem body_syms_mem (g : Grammar) (A : String)
    (rhss : List (List String)) (rhs : List String) (sym : String)
    (hA : (A, rhss) ∈ g.productions) (hr : rhs ∈ rhss) (hs : sym ∈ rhs) :
    sym ∈ symbolsF g := by
  unfold symbolsF
  rw [List.mem_toFinset, List.mem_flatten]
  refine ⟨rhss.flatten, ?_, ?_⟩
  · have : (fun p : String × List (List String) => p.2.flatten) (A, rhss)
        = rhss.flatten := rfl
    rw [← this]
    exact List.mem_map_of_mem _ hA
  · rw [List.mem_flatten]
    exact ⟨rhs, hr, hs⟩

/-- Every body of the grammar is no longer than `lenB`. -/
theorem body_length_le (g : Grammar) (A : String)
    (rhss : List (List String)) (rhs : List String)
    (hA : (A, rhss) ∈ g.productions) (hr : rhs ∈ rhss) :
    rhs.length ≤ lenB g := by
  have h1 : rhs.length ≤ (rhss.map List.length).sum :=
    List.single_le_sum (fun x _ => Nat.zero_le x) _
      (List.mem_map_of_mem _ hr)
  have h2 : rhss.length + (rhss.map List.length).sum ≤ lenB g := by
    unfold lenB
    exact List.single_le_sum (fun x _ => Nat.zero_le x) _
      (List.mem_map_of_mem _ hA)
  omega

/-! ## Claim C4, stage 2: fuel sufficiency for the FIRST stage -/

theorem firstGoF_nil (n : Nat) (g : Grammar) (X : String) (σ : St) :
    firstGoF (n + 1) g X [] σ = some σ := rfl

theorem scan_suff_of_first (g : Grammar) (k : Nat)
    (hfirst : LfirstP g k) : LscanP g k := by
  intro rhs
  induction rhs with
  | nil =>
    intro _ acc σ n _ hn
    obtain ⟨m, rfl⟩ : ∃ m, n = m + 1 := ⟨n - 1, by omega⟩
    rw [scanF_nil]
    rfl
  | cons sym rest ih =>
    intro hok acc σ n hmu hn
    obtain ⟨m, rfl⟩ : ∃ m, n = m + 1 := ⟨n - 1, by omega⟩
    simp only [List.length_cons] at hn
    rw [scanF_cons_eq]
    split
    · rfl
    · rename_i hnt
      have hnt2 : is_nonterminal sym = true := by
        cases h3 : is_nonterminal sym
        · exact absurd h3 hnt
        · rfl
      have hXU : sym ∈ uSet g :=
        hok sym (List.mem_cons_self sym rest) hnt2
      have hf : (firstF m g sym σ).isSome = true :=
        hfirst σ sym m hmu hXU (by omega)
      split
      · rename_i hfe
        rw [hfe] at hf
        exact absurd hf (by simp)
      · rename_i p fs σ2 hfe
        have hmu2 : muF g σ2 ≤ k :=
          le_trans (muF_le_of_pres g
            ((firstPhase_pres m).1 g sym σ fs σ2 hfe)) hmu
        split
        · exact ih (fun s hs ht => hok s (List.mem_cons_of_mem sym hs) ht)
            (acc ∪ fs.erase EPS) σ2 m hmu2 (by omega)
        · rfl

theorem rhs_suff_of_first (g : Grammar) (k : Nat)
    (hfirst : LfirstP g k) : LrhsP g k := by
  have hscan := scan_suff_of_first g k hfirst
  intro rhs hok σ n hmu hn
  obtain ⟨m, rfl⟩ : ∃ m, n = m + 1 := ⟨n - 1, by omega⟩
  rw [firstOfRhsF_succ_eq]
  split
  · rfl
  · split
    · rfl
    · have hs : (scanF m g rhs ∅ σ).isSome = true :=
        hscan rhs hok ∅ σ m hmu (by omega)
      obtain ⟨⟨r, σ2⟩, hse⟩ := Option.isSome_iff_exists.mp hs
      rw [hse]
      rfl

theorem go_suff_of_first (g : Grammar) (k : Nat)
    (hfirst : LfirstP g k) : LgoP g k := by
  have hrhs := rhs_suff_of_first g k hfirst
  intro alphas
  induction alphas with
  | nil =>
    intro _ X σ n _ hn
    obtain ⟨m, rfl⟩ : ∃ m, n = m + 1 := ⟨n - 1, by omega⟩
    rw [firstGoF_nil]
    rfl
  | cons alpha rest ih =>
    intro hcond X σ n hmu hn
    obtain ⟨m, rfl⟩ : ∃ m, n = m + 1 := ⟨n - 1, by omega⟩
    simp only [List.length_cons] at hn
    rw [firstGoF_cons_eq]
    have halpha := hcond alpha (List.mem_cons_self alpha rest)
    have hre : (firstOfRhsF m g alpha σ).isSome = true := by
      refine hrhs alpha halpha.1 σ m hmu ?_
      have := halpha.2
      omega
    split
    · rename_i hree
      rw [hree] at hre
      exact absurd hre (by simp)
    · rename_i p fa σ2 hree
      have hmu2 : muF g (goUpdate X fa σ2) ≤ k := by
        refine le_trans (muF_le_of_pres g ?_) hmu
        exact ((firstPhase_pres m).2.2.1 g alpha σ fa σ2 hree).trans
          (StPres.goUpdate σ2 X fa)
      exact ih (fun a ha => hcond a (List.mem_cons_of_mem alpha ha)) X
        (goUpdate X fa σ2) m hmu2 (by omega)

/-- Fuel sufficiency for `first`: with at most `k` relevant symbols missing
from the FIRST cache, fuel `k * (2 * lenB g + 5) + 1` suffices. -/
theorem firstF_fuel (g : Grammar) : ∀ k : Nat, LfirstP g k := by
  intro k
  induction k with
  | zero =>
    intro σ X n hmu hX hn
    obtain ⟨m, rfl⟩ : ∃ m, n = m + 1 := ⟨n - 1, by omega⟩
    rw [firstF_succ_eq]
    split
    · rfl
    · rename_i hl
      exfalso
      have hmem : X ∈ uSet g \ domFC σ := by
        rw [Finset.mem_sdiff, mem_domFC]
        refine ⟨hX, ?_⟩
        rw [hl]
        simp
      have hpos : 0 < muF g σ := Finset.card_pos.mpr ⟨X, hmem⟩
      omega
  | succ k ihk =>
    intro σ X n hmu hX hn
    obtain ⟨m, rfl⟩ : ∃ m, n = m + 1 := ⟨n - 1, by omega⟩
    rw [Nat.succ_mul] at hn
    rw [firstF_succ_eq]
    split
    · rfl
    · rename_i hl
      have hgo := go_suff_of_first g k ihk
      have hmu1 : muF g { σ with firstC := setA σ.firstC X ∅ } ≤ k := by
        have := muF_insert_lt g σ X ∅ hX hl
        omega
      have hcond : ∀ alpha ∈ prodsGet g X,
          symsOKP g alpha ∧ alpha.length ≤ lenB g := by
        intro alpha ha
        constructor
        · intro sym hs _
          exact Finset.mem_union_right (keysF g)
            (mem_prodsGet_syms g X alpha sym ha hs)
        · exact mem_prodsGet_length_le g X alpha ha
      have hlen := prodsGet_length_le g X
      have hsome := hgo (prodsGet g X) hcond X
        { σ with firstC := setA σ.firstC X ∅ } m hmu1 (by omega)
      obtain ⟨σ2, he⟩ := Option.isSome_iff_exists.mp hsome
      rw [he]
      rfl

/-- Fuel sufficiency for `first_of_rhs`. -/
theorem firstOfRhsF_fuel (g : Grammar) (k : Nat) : LrhsP g k :=
  rhs_suff_of_first g k (firstF_fuel g k)

/-! ## Claim C4, stage 3: value bounds for the FIRST stage -/

theorem WFfirst_lookup_first {g : Grammar} {σ : St} {X : String} {v : FSet}
    (hw : WFfirst g σ) (h : lookupA σ.firstC X = some v) :
    v ⊆ symbolsF g ∪ {EPS} :=
  hw.1 (X, v) (mem_of_lookupA_eq_some h)

theorem WFfirst_lookup_rhs {g : Grammar} {σ : St} {rhs : List String}
    {v : FSet} (hw : WFfirst g σ) (h : lookupA σ.rhsC rhs = some v) :
    v ⊆ symbolsF g ∪ {EPS} :=
  hw.2 (rhs, v) (mem_of_lookupA_eq_some h)

theorem WFfirst_getD {g : Grammar} {σ : St} (hw : WFfirst g σ)
    (X : String) : (lookupA σ.firstC X).getD ∅ ⊆ symbolsF g ∪ {EPS} := by
  rcases h : lookupA σ.firstC X with _ | v
  · simp
  · simpa using WFfirst_lookup_first hw h

theorem WFfirst_setFirst {g : Grammar} {σ : St} {X : String} {v : FSet}
    (hw : WFfirst g σ) (hv : v ⊆ symbolsF g ∪ {EPS}) :
    WFfirst g { σ with firstC := setA σ.firstC X v } := by
  constructor
  · intro p hp
    rcases setA_mem hp with h | h
    · exact hw.1 p h
    · rw [h]
      exact hv
  · exact hw.2

theorem WFfirst_setRhs {g : Grammar} {σ : St} {rhs : List String} {v : FSet}
    (hw : WFfirst g σ) (hv : v ⊆ symbolsF g ∪ {EPS}) :
    WFfirst g { σ with rhsC := setA σ.rhsC rhs v } := by
  constructor
  · exact hw.1
  · intro p hp
    rcases setA_mem hp with h | h
    · exact hw.2 p h
    · rw [h]
      exact hv

/-- Every FIRST-stage operation keeps all cached values inside
`symbolsF g ∪ {ε}` and returns a set inside that same bound. -/
theorem firstPhase_bound (g : Grammar) :
    ∀ n : Nat,
    (∀ X σ r σ2, WFfirst g σ → firstF n g X σ = some (r, σ2) →
      WFfirst g σ2 ∧ r ⊆ symbolsF g ∪ {EPS}) ∧
    (∀ X alphas σ σ2, WFfirst g σ →
      (∀ alpha ∈ alphas, ∀ sym ∈ alpha, sym ∈ symbolsF g) →
      firstGoF n g X alphas σ = some σ2 → WFfirst g σ2) ∧
    (∀ rhs σ r σ2, WFfirst g σ → (∀ sym ∈ rhs, sym ∈ symbolsF g) →
      firstOfRhsF n g rhs σ = some (r, σ2) →
      WFfirst g σ2 ∧ r ⊆ symbolsF g ∪ {EPS}) ∧
    (∀ syms acc σ r σ2, WFfirst g σ → (∀ sym ∈ syms, sym ∈ symbolsF g) →
      acc ⊆ symbolsF g ∪ {EPS} → scanF n g syms acc σ = some (r, σ2) →
      WFfirst g σ2 ∧ r ⊆ symbolsF g ∪ {EPS}) := by
  intro n
  induction n with
  | zero =>
    refine ⟨?_, ?_, ?_, ?_⟩
    · intro X σ r σ2 _ h
      exact Option.noConfusion h
    · intro X alphas σ σ2 _ _ h
      exact Option.noConfusion h
    · intro rhs σ r σ2 _ _ h
      exact Option.noConfusion h
    · intro syms acc σ r σ2 _ _ _ h
      exact Option.noConfusion h
  | succ m ih =>
    obtain ⟨ih1, ih2, ih3, ih4⟩ := ih
    have hEPS : EPS ∈ symbolsF g ∪ {EPS} := by
      apply Finset.mem_union_right
      exact Finset.mem_singleton_self EPS
    refine ⟨?_, ?_, ?_, ?_⟩
    · intro X σ r σ2 hw h
      rw [firstF_succ_eq] at h
      rcases hl : lookupA σ.firstC X with _ | s
      · rw [hl] at h
        rcases hg : firstGoF m g X (prodsGet g X)
            { σ with firstC := setA σ.firstC X ∅ } with _ | σ3
        · rw [hg] at h
          exact Option.noConfusion h
        · rw [hg] at h
          simp at h
          have hw3 : WFfirst g σ3 :=
            ih2 X (prodsGet g X) _ σ3
              (WFfirst_setFirst hw (Finset.empty_subset _))
              (fun alpha ha sym hs => mem_prodsGet_syms g X alpha sym ha hs)
              hg
          refine ⟨h.2 ▸ hw3, ?_⟩
          rw [← h.1]
          exact WFfirst_getD hw3 X
      · rw [hl] at h
        simp at h
        exact ⟨h.2 ▸ hw, h.1 ▸ WFfirst_lookup_first hw hl⟩
    · intro X alphas σ σ2 hw hsyms h
      cases alphas with
      | nil =>
        have h2 : (some σ : Option St) = some σ2 := h
        simp at h2
        exact h2 ▸ hw
      | cons alpha rest =>
        rw [firstGoF_cons_eq] at h
        rcases hr : firstOfRhsF m g alpha σ with _ | p
        · rw [hr] at h
          exact Option.noConfusion h
        · obtain ⟨fa, σ3⟩ := p
          rw [hr] at h
          obtain ⟨hw3, hfa⟩ := ih3 alpha σ fa σ3 hw
            (hsyms alpha (List.mem_cons_self alpha rest)) hr
          have hwup : WFfirst g (goUpdate X fa σ3) := by
            apply WFfirst_setFirst hw3
            apply Finset.union_subset
            · apply Finset.union_subset (WFfirst_getD hw3 X)
              exact Finset.Subset.trans (Finset.erase_subset EPS fa) hfa
            · split
              · intro x hx
                rw [Finset.mem_singleton] at hx
                rw [hx]
                exact hEPS
              · exact Finset.empty_subset _
          exact ih2 X rest (goUpdate X fa σ3) σ2 hwup
            (fun a ha sym hs =>
              hsyms a (List.mem_cons_of_mem alpha ha) sym hs) h
    · intro rhs σ r σ2 hw hsyms h
      rw [firstOfRhsF_succ_eq] at h
      rcases hl : lookupA σ.rhsC rhs with _ | s
      · rw [hl] at h
        by_cases he : rhs = []
        · rw [if_pos he] at h
          simp at h
          have hsub : ({EPS} : FSet) ⊆ symbolsF g ∪ {EPS} := by
            intro x hx
            rw [Finset.mem_singleton] at hx
            rw [hx]
            exact hEPS
          exact ⟨h.2 ▸ WFfirst_setRhs hw hsub, h.1 ▸ hsub⟩
        · rw [if_neg he] at h
          rcases hs : scanF m g rhs ∅ σ with _ | p
          · rw [hs] at h
            exact Option.noConfusion h
          · obtain ⟨r2, σ3⟩ := p
            rw [hs] at h
            simp at h
            obtain ⟨hw3, hr2⟩ := ih4 rhs ∅ σ r2 σ3 hw hsyms
              (Finset.empty_subset _) hs
            exact ⟨h.2 ▸ WFfirst_setRhs hw3 hr2, h.1 ▸ hr2⟩
      · rw [hl] at h
        simp at h
        exact ⟨h.2 ▸ hw, h.1 ▸ WFfirst_lookup_rhs hw hl⟩
    · intro syms acc σ r σ2 hw hsyms hacc h
      cases syms with
      | nil =>
        have h2 : (some (insert EPS acc, σ) : Option (FSet × St))
            = some (r, σ2) := h
        simp at h2
        refine ⟨h2.2 ▸ hw, ?_⟩
        rw [← h2.1]
        exact Finset.insert_subset hEPS hacc
      | cons sym rest =>
        rw [scanF_cons_eq] at h
        by_cases hnt : is_nonterminal sym = false
        · rw [if_pos hnt] at h
          simp at h
          refine ⟨h.2 ▸ hw, ?_⟩
          rw [← h.1]
          apply Finset.insert_subset ?_ hacc
          exact Finset.mem_union_left _
            (hsyms sym (List.mem_cons_self sym rest))
        · rw [if_neg hnt] at h
          rcases hf : firstF m g sym σ with _ | p
          · rw [hf] at h
            exact Option.noConfusion h
          · obtain ⟨fs, σ3⟩ := p
            rw [hf] at h
            obtain ⟨hw3, hfs⟩ := ih1 sym σ fs σ3 hw hf
            have hacc2 : acc ∪ fs.erase EPS ⊆ symbolsF g ∪ {EPS} :=
              Finset.union_subset hacc
                (Finset.Subset.trans (Finset.erase_subset EPS fs) hfs)
            have h2 : (if EPS ∈ fs then
                scanF m g rest (acc ∪ fs.erase EPS) σ3
              else some (acc ∪ fs.erase EPS, σ3)) = some (r, σ2) := h
            by_cases he : EPS ∈ fs
            · rw [if_pos he] at h2
              exact ih4 rest (acc ∪ fs.erase EPS) σ3 r σ2 hw3
                (fun s hs => hsyms s (List.mem_cons_of_mem sym hs))
                hacc2 h2
            · rw [if_neg he] at h2
              simp at h2
              exact ⟨h2.2 ▸ hw3, h2.1 ▸ hacc2⟩

/-! ## Claim C4, stage 4: FOLLOW totals and bounds -/

theorem followTotal_setA (m : List (String × FSet)) (B : String)
    (v w : FSet) (h : lookupA m B = some v) :
    followTotal (setA m B w) + v.card = followTotal m + w.card := by
  induction m with
  | nil => simp [lookupA] at h
  | cons p rest ih =>
    obtain ⟨k, u⟩ := p
    by_cases hb : B = k
    · subst hb
      simp [lookupA] at h
      subst h
      simp [setA, followTotal]
      omega
    · have hb2 : ¬(B = k) := hb
      simp [lookupA, hb2] at h
      simp [setA, fun h2 => hb2 h2, followTotal] at ih ⊢
      have := ih h
      omega

theorem followTotal_le (m : List (String × FSet)) (S : Finset String)
    (h : ∀ p ∈ m, p.2 ⊆ S) : followTotal m ≤ m.length * S.card := by
  induction m with
  | nil => simp [followTotal]
  | cons p rest ih =>
    simp only [followTotal, List.map_cons, List.sum_cons, List.length_cons]
    have h1 : p.2.card ≤ S.card :=
      Finset.card_le_card (h p (List.mem_cons_self p rest))
    have h2 : followTotal rest ≤ rest.length * S.card :=
      ih (fun q hq => h q (List.mem_cons_of_mem p hq))
    rw [followTotal] at h2
    rw [Nat.succ_mul]
    omega

/-- Erasing `ε` from a set bounded by `symbolsF g ∪ {ε}` lands inside
`symbolsF g`. -/
theorem erase_EPS_subset {g : Grammar} {fr : FSet}
    (h : fr ⊆ symbolsF g ∪ {EPS}) : fr.erase EPS ⊆ symbolsF g := by
  intro x hx
  rw [Finset.mem_erase] at hx
  rcases Finset.mem_union.mp (h hx.2) with h2 | h2
  · exact h2
  · rw [Finset.mem_singleton] at h2
    exact absurd h2 hx.1

theorem Inv_WFfirst {g : Grammar} {σ : St} (h : Inv g σ) : WFfirst g σ :=
  ⟨h.1, h.2.1⟩

/-! ## Claim C4, stage 5: one pass succeeds and grows the totals -/

theorem setFollow_followC (σ : St) (m : List (String × FSet)) :
    (setFollow σ m).followC = m := rfl

/-- One production body processed by a `follow_all` pass: with the state
invariant and every symbol drawn from the grammar (nonterminals being
heads), the inner loop succeeds with fuel `fuelFF g`, keeps the invariant,
preserves the number of FOLLOW entries, never shrinks the total FOLLOW
size, and grows it strictly whenever it raises the dirty flag. -/
theorem followSymsF_run (g : Grammar) (A : String)
    (hAk : A ∈ g.productions.map Prod.fst) :
    ∀ (syms : List String) (σ : St) (c : Bool),
    Inv g σ →
    (∀ sym ∈ syms, sym ∈ symbolsF g) →
    (∀ sym ∈ syms, is_nonterminal sym = true →
      sym ∈ g.productions.map Prod.fst) →
    syms.length ≤ lenB g →
    ∃ c2 σ2, followSymsF (fuelFF g) g A syms σ c = some (c2, σ2) ∧
      Inv g σ2 ∧ σ2.followC.length = σ.followC.length ∧
      followTotal σ.followC ≤ followTotal σ2.followC ∧
      (c = false → c2 = true →
        followTotal σ.followC < followTotal σ2.followC) := by
  intro syms
  induction syms with
  | nil =>
    intro σ c hInv _ _ _
    refine ⟨c, σ, rfl, hInv, rfl, Nat.le_refl _, ?_⟩
    intro h1 h2
    rw [h1] at h2
    exact absurd h2 (by simp)
  | cons B tail ih =>
    intro σ c hInv hsym hkeys hlen
    simp only [List.length_cons] at hlen
    have htail_sym : ∀ sym ∈ tail, sym ∈ symbolsF g :=
      fun s hs => hsym s (List.mem_cons_of_mem B hs)
    have htail_keys : ∀ sym ∈ tail, is_nonterminal sym = true →
        sym ∈ g.productions.map Prod.fst :=
      fun s hs ht => hkeys s (List.mem_cons_of_mem B hs) ht
    have htail_len : tail.length ≤ lenB g := by omega
    by_cases hnt : is_nonterminal B = false
    · obtain ⟨c2, σ2, hrec, hi, hl2, hle, hstrict⟩ :=
        ih σ c hInv htail_sym htail_keys htail_len
    -- a terminal position is simply skipped
      refine ⟨c2, σ2, ?_, hi, hl2, hle, hstrict⟩
      show followSymsF (fuelFF g) g A (B :: tail) σ c = some (c2, σ2)
      simp only [followSymsF, hnt, if_pos]
      exact hrec
    · have hnt2 : is_nonterminal B = true := by
        cases h3 : is_nonterminal B
        · exact absurd h3 hnt
        · rfl
      have hok : symsOKP g tail := fun s hs _ =>
        Finset.mem_union_right (keysF g) (htail_sym s hs)
      have hfr : (firstOfRhsF (fuelFF g) g tail σ).isSome = true := by
        refine firstOfRhsF_fuel g ((uSet g).card) tail hok σ (fuelFF g)
          (muF_le_card g σ) ?_
        unfold fuelFF
        omega
      obtain ⟨⟨firstRest, σ1⟩, hfre⟩ := Option.isSome_iff_exists.mp hfr
      have hpres : StPres σ σ1 :=
        (firstPhase_pres (fuelFF g)).2.2.1 g tail σ firstRest σ1 hfre
      have hfol1 : σ1.followC = σ.followC := hpres.1
      obtain ⟨hw1, hfrb⟩ := (firstPhase_bound g (fuelFF g)).2.2.1 tail σ
        firstRest σ1 (Inv_WFfirst hInv) htail_sym hfre
      have hBk : B ∈ g.productions.map Prod.fst :=
        hkeys B (List.mem_cons_self B tail) hnt2
      have hBsome : (lookupA σ1.followC B).isSome = true := by
        rw [hfol1]
        exact hInv.2.2.2 B hBk
      obtain ⟨before, hb⟩ := Option.isSome_iff_exists.mp hBsome
      have hbσ : lookupA σ.followC B = some before := by
        rw [← hfol1]
        exact hb
      have hbmem : before ⊆ symbolsF g ∪ {DOLLAR} :=
        hInv.2.2.1 (B, before) (mem_of_lookupA_eq_some hbσ)
      have hmidb : before ∪ firstRest.erase EPS ⊆ symbolsF g ∪ {DOLLAR} :=
        Finset.union_subset hbmem
          (fun x hx => Finset.mem_union_left _ (erase_EPS_subset hfrb hx))
      have hmem1 : ∀ p ∈ σ1.followC, p.2 ⊆ symbolsF g ∪ {DOLLAR} := by
        rw [hfol1]
        exact hInv.2.2.1
      have hkeys1 : ∀ X ∈ g.productions.map Prod.fst,
          (lookupA σ1.followC X).isSome = true := by
        rw [hfol1]
        exact hInv.2.2.2
      have he1 := followTotal_setA σ1.followC B before
        (before ∪ firstRest.erase EPS) hb
      have hc1 : before.card ≤ (before ∪ firstRest.erase EPS).card :=
        Finset.card_le_card Finset.subset_union_left
      by_cases hcond : EPS ∈ firstRest ∨ tail = []
      · have hAsome : (lookupA (setA σ1.followC B
            (before ∪ firstRest.erase EPS)) A).isSome = true :=
          lookupA_setA_isSome σ1.followC B _ A (hkeys1 A hAk)
        obtain ⟨fa, hfa⟩ := Option.isSome_iff_exists.mp hAsome
        have hfab : fa ⊆ symbolsF g ∪ {DOLLAR} := by
          rcases setA_mem (mem_of_lookupA_eq_some hfa) with hmem | hmem
          · exact hmem1 (A, fa) hmem
          · have hfa2 : fa = before ∪ firstRest.erase EPS :=
              congrArg Prod.snd hmem
            rw [hfa2]
            exact hmidb
        have hInv3 : Inv g (setFollow σ1
            (setA (setA σ1.followC B (before ∪ firstRest.erase EPS)) B
              ((before ∪ firstRest.erase EPS) ∪ fa))) := by
          refine ⟨hw1.1, hw1.2, ?_, ?_⟩
          · intro p hp
            rcases setA_mem hp with hp2 | hp2
            · rcases setA_mem hp2 with hp3 | hp3
              · exact hmem1 p hp3
              · rw [hp3]
                exact hmidb
            · rw [hp2]
              exact Finset.union_subset hmidb hfab
          · intro X hX
            exact lookupA_setA_isSome _ B _ X
              (lookupA_setA_isSome _ B _ X (hkeys1 X hX))
        obtain ⟨c2, σf, hrec, hif, hlf, hlef, hstrictf⟩ :=
          ih (setFollow σ1
              (setA (setA σ1.followC B (before ∪ firstRest.erase EPS)) B
                ((before ∪ firstRest.erase EPS) ∪ fa)))
            (c || decide ((before ∪ firstRest.erase EPS) ∪ fa ≠ before))
            hInv3 htail_sym htail_keys htail_len
        rw [setFollow_followC] at hlf hlef hstrictf
        have he2 := followTotal_setA
          (setA σ1.followC B (before ∪ firstRest.erase EPS)) B
          (before ∪ firstRest.erase EPS)
          ((before ∪ firstRest.erase EPS) ∪ fa)
          (lookupA_setA_self σ1.followC B _)
        have hc2 : (before ∪ firstRest.erase EPS).card ≤
            ((before ∪ firstRest.erase EPS) ∪ fa).card :=
          Finset.card_le_card Finset.subset_union_left
        have hbefsub : before ⊆ (before ∪ firstRest.erase EPS) ∪ fa :=
          Finset.Subset.trans Finset.subset_union_left
            Finset.subset_union_left
        have hTσ : followTotal σ1.followC = followTotal σ.followC := by
          rw [hfol1]
        refine ⟨c2, σf, ?_, hif, ?_, ?_, ?_⟩
        · show followSymsF (fuelFF g) g A (B :: tail) σ c = some (c2, σf)
          simp only [followSymsF, hnt2, hfre, hb, hfa, if_pos hcond]
          exact hrec
        · rw [hlf]
          show (setA (setA σ1.followC B _) B _).length = σ.followC.length
          rw [setA_length _ B _ (by rw [lookupA_setA_self]; rfl),
            setA_length _ B _ hBsome, hfol1]
        · rw [← hTσ]
          omega
        · intro hc0 hc2t
          by_cases hd : (before ∪ firstRest.erase EPS) ∪ fa = before
          · have hflag : (c || decide ((before ∪ firstRest.erase EPS) ∪ fa
                ≠ before)) = false := by
              rw [hc0, hd]
              simp
            have hcards : ((before ∪ firstRest.erase EPS) ∪ fa).card
                = before.card := by rw [hd]
            have := hstrictf hflag hc2t
            rw [← hTσ]
            omega
          · have hss : before ⊂ (before ∪ firstRest.erase EPS) ∪ fa :=
              ⟨hbefsub, fun hsub => hd (Finset.Subset.antisymm (by
                intro x hx
                rcases Finset.mem_union.mp hx with hx2 | hx2
                · rcases Finset.mem_union.mp hx2 with hx3 | hx3
                  · exact hx3
                  · exact hsub (Finset.mem_union_left _
                      (Finset.mem_union_right _ hx3))
                · exact hsub (Finset.mem_union_right _ hx2)) hbefsub)⟩
            have hcard := Finset.card_lt_card hss
            rw [← hTσ]
            omega
      · have hInv2 : Inv g (setFollow σ1
            (setA σ1.followC B (before ∪ firstRest.erase EPS))) := by
          refine ⟨hw1.1, hw1.2, ?_, ?_⟩
          · intro p hp
            rcases setA_mem hp with hp2 | hp2
            · exact hmem1 p hp2
            · rw [hp2]
              exact hmidb
          · intro X hX
            exact lookupA_setA_isSome _ B _ X (hkeys1 X hX)
        obtain ⟨c2, σf, hrec, hif, hlf, hlef, hstrictf⟩ :=
          ih (setFollow σ1
              (setA σ1.followC B (before ∪ firstRest.erase EPS)))
            (c || decide (before ∪ firstRest.erase EPS ≠ before))
            hInv2 htail_sym htail_keys htail_len
        rw [setFollow_followC] at hlf hlef hstrictf
        have hTσ : followTotal σ1.followC = followTotal σ.followC := by
          rw [hfol1]
        refine ⟨c2, σf, ?_, hif, ?_, ?_, ?_⟩
        · show followSymsF (fuelFF g) g A (B :: tail) σ c = some (c2, σf)
          simp only [followSymsF, hnt2, hfre, hb, if_neg hcond]
          exact hrec
        · rw [hlf]
          show (setA σ1.followC B _).length = σ.followC.length
          rw [setA_length _ B _ hBsome, hfol1]
        · rw [← hTσ]
          omega
        · intro hc0 hc2t
          by_cases hd : before ∪ firstRest.erase EPS = before
          · have hflag : (c || decide (before ∪ firstRest.erase EPS
                ≠ before)) = false := by
              rw [hc0, hd]
              simp
            have hcards : (before ∪ firstRest.erase EPS).card
                = before.card := by rw [hd]
            have := hstrictf hflag hc2t
            rw [← hTσ]
            omega
          · have hss : before ⊂ before ∪ firstRest.erase EPS :=
              ⟨Finset.subset_union_left, fun hsub => hd
                (Finset.Subset.antisymm hsub Finset.subset_union_left)⟩
            have hcard := Finset.card_lt_card hss
            rw [← hTσ]
            omega

/-! ## Claim C4, stage 6: passes, the loop, and follow_all -/

theorem validG_start (g : Grammar) (h : validG g = true) :
    g.start ∈ g.productions.map Prod.fst := by
  unfold validG at h
  rw [Bool.and_eq_true] at h
  rw [← lookupA_isSome_iff]
  exact h.1

theorem validG_body (g : Grammar) (h : validG g = true) (A : String)
    (rhss : List (List String)) (rhs : List String) (sym : String)
    (hA : (A, rhss) ∈ g.productions) (hr : rhs ∈ rhss) (hs : sym ∈ rhs)
    (hnt : is_nonterminal sym = true) :
    sym ∈ g.productions.map Prod.fst := by
  unfold validG at h
  rw [Bool.and_eq_true, List.all_eq_true] at h
  have h2 := h.2 (A, rhss) hA
  rw [List.all_eq_true] at h2
  have h3 := h2 rhs hr
  rw [List.all_eq_true] at h3
  have h4 := h3 sym hs
  rw [Bool.or_eq_true] at h4
  rcases h4 with h5 | h5
  · rw [hnt] at h5
    exact absurd h5 (by simp)
  · rw [← lookupA_isSome_iff]
    exact h5

/-- The per-body conditions that a `follow_all` pass needs, for one
production. -/
def prodOK (g : Grammar) (p : String × List (List String)) : Prop :=
  p.1 ∈ g.productions.map Prod.fst ∧
  ∀ rhs ∈ p.2, (∀ sym ∈ rhs, sym ∈ symbolsF g) ∧
    (∀ sym ∈ rhs, is_nonterminal sym = true →
      sym ∈ g.productions.map Prod.fst) ∧
    rhs.length ≤ lenB g

theorem validG_prodOK (g : Grammar) (h : validG g = true) :
    ∀ p ∈ g.productions, prodOK g p := by
  intro p hp
  obtain ⟨A, rhss⟩ := p
  refine ⟨List.mem_map_of_mem Prod.fst hp, ?_⟩
  intro rhs hr
  exact ⟨fun sym hs => body_syms_mem g A rhss rhs sym hp hr hs,
    fun sym hs hnt => validG_body g h A rhss rhs sym hp hr hs hnt,
    body_length_le g A rhss rhs hp hr⟩

/-- All bodies of one head processed by a pass: success plus the invariant,
length, and total-growth properties. -/
theorem followRhssF_run (g : Grammar) (A : String)
    (hAk : A ∈ g.productions.map Prod.fst) :
    ∀ (rhss : List (List String)) (σ : St) (c : Bool),
    Inv g σ →
    (∀ rhs ∈ rhss, (∀ sym ∈ rhs, sym ∈ symbolsF g) ∧
      (∀ sym ∈ rhs, is_nonterminal sym = true →
        sym ∈ g.productions.map Prod.fst) ∧
      rhs.length ≤ lenB g) →
    ∃ c2 σ2, followRhssF (fuelFF g) g A rhss σ c = some (c2, σ2) ∧
      Inv g σ2 ∧ σ2.followC.length = σ.followC.length ∧
      followTotal σ.followC ≤ followTotal σ2.followC ∧
      (c = false → c2 = true →
        followTotal σ.followC < followTotal σ2.followC) := by
  intro rhss
  induction rhss with
  | nil =>
    intro σ c hInv _
    refine ⟨c, σ, rfl, hInv, rfl, Nat.le_refl _, ?_⟩
    intro h1 h2
    rw [h1] at h2
    exact absurd h2 (by simp)
  | cons rhs rest ih =>
    intro σ c hInv hcond
    obtain ⟨hc1, hc2, hc3⟩ := hcond rhs (List.mem_cons_self rhs rest)
    obtain ⟨c1, σa, hstep, hia, hla, hlea, hsta⟩ :=
      followSymsF_run g A hAk rhs σ c hInv hc1 hc2 hc3
    obtain ⟨c2, σf, hrest, hif, hlf, hlef, hstf⟩ :=
      ih σa c1 hia (fun r hr => hcond r (List.mem_cons_of_mem rhs hr))
    refine ⟨c2, σf, ?_, hif, by rw [hlf, hla], le_trans hlea hlef, ?_⟩
    · show followRhssF (fuelFF g) g A (rhs :: rest) σ c = some (c2, σf)
      simp only [followRhssF, hstep]
      exact hrest
    · intro h1 h2
      by_cases hcc : c1 = true
      · exact Nat.lt_of_lt_of_le (hsta h1 hcc) hlef
      · have hcc2 : c1 = false := by
          cases c1
          · rfl
          · exact absurd rfl hcc
        exact Nat.lt_of_le_of_lt hlea (hstf hcc2 h2)

/-- A full pass over all productions: success plus the invariant, length,
and total-growth properties. -/
theorem followProdsF_run (g : Grammar) :
    ∀ (ps : List (String × List (List String))) (σ : St) (c : Bool),
    Inv g σ →
    (∀ p ∈ ps, prodOK g p) →
    ∃ c2 σ2, followProdsF (fuelFF g) g ps σ c = some (c2, σ2) ∧
      Inv g σ2 ∧ σ2.followC.length = σ.followC.length ∧
      followTotal σ.followC ≤ followTotal σ2.followC ∧
      (c = false → c2 = true →
        followTotal σ.followC < followTotal σ2.followC) := by
  intro ps
  induction ps with
  | nil =>
    intro σ c hInv _
    refine ⟨c, σ, rfl, hInv, rfl, Nat.le_refl _, ?_⟩
    intro h1 h2
    rw [h1] at h2
    exact absurd h2 (by simp)
  | cons p rest ih =>
    obtain ⟨A, rhss⟩ := p
    intro σ c hInv hcond
    obtain ⟨hA, hbody⟩ := hcond (A, rhss) (List.mem_cons_self _ rest)
    obtain ⟨c1, σa, hstep, hia, hla, hlea, hsta⟩ :=
      followRhssF_run g A hA rhss σ c hInv hbody
    obtain ⟨c2, σf, hrest, hif, hlf, hlef, hstf⟩ :=
      ih σa c1 hia (fun q hq => hcond q (List.mem_cons_of_mem _ hq))
    refine ⟨c2, σf, ?_, hif, by rw [hlf, hla], le_trans hlea hlef, ?_⟩
    · show followProdsF (fuelFF g) g ((A, rhss) :: rest) σ c = some (c2, σf)
      simp only [followProdsF, hstep]
      exact hrest
    · intro h1 h2
      by_cases hcc : c1 = true
      · exact Nat.lt_of_lt_of_le (hsta h1 hcc) hlef
      · have hcc2 : c1 = false := by
          cases c1
          · rfl
          · exact absurd rfl hcc
        exact Nat.lt_of_le_of_lt hlea (hstf hcc2 h2)

/-- The `while changed` loop terminates: each dirty pass strictly grows
the bounded total size of the FOLLOW dictionary, so enough fuel reaches a
clean pass. -/
theorem followLoopF_run (g : Grammar)
    (hps : ∀ p ∈ g.productions, prodOK g p) :
    ∀ (fuel : Nat) (σ : St), Inv g σ →
    σ.followC.length * (symbolsF g ∪ {DOLLAR}).card + 2 ≤
      fuel + followTotal σ.followC →
    (followLoopF (fuelFF g) g fuel σ).isSome = true := by
  intro fuel
  induction fuel with
  | zero =>
    intro σ hInv hbound
    exfalso
    have := followTotal_le σ.followC (symbolsF g ∪ {DOLLAR}) hInv.2.2.1
    omega
  | succ f ih =>
    intro σ hInv hbound
    obtain ⟨c2, σ2, hpass, hi2, hl2, hle2, hst2⟩ :=
      followProdsF_run g g.productions σ false hInv hps
    simp only [followLoopF, hpass]
    by_cases hc2 : c2 = true
    · rw [if_pos hc2]
      refine ih σ2 hi2 ?_
      have hstrict := hst2 rfl hc2
      rw [hl2]
      omega
    · have hcc2 : c2 = false := by
        cases c2
        · rfl
        · exact absurd rfl hc2
      rw [hcc2]
      simp

/-- Claim C4: for every structurally valid grammar — the start symbol and
every nonterminal-shaped symbol occurring in a body are keys of the
productions mapping — `follow_all()` on a fresh analyzer terminates with no
error: some fuels make the fueled embedding return a result, because every
FollowSet only grows inside the bounded universe of grammar symbols plus
`$`, so the dirty-flag loop reaches a pass with no change. -/
theorem follow_all_terminates_on_valid (g : Grammar)
    (hv : validG g = true) :
    ∃ fF fL σ2, followAllF fF fL g initSt = some σ2 := by
  have hkeysome : (lookupA (setdefaultAll initSt.followC
      (g.productions.map Prod.fst)) g.start).isSome = true :=
    lookupA_setdefaultAll_isSome_of_mem initSt.followC _ g.start
      (validG_start g hv)
  obtain ⟨s0, hs0⟩ := Option.isSome_iff_exists.mp hkeysome
  have hs0e : s0 = ∅ := by
    rcases setdefaultAll_mem (g.productions.map Prod.fst) initSt.followC
      (g.start, s0) (mem_of_lookupA_eq_some hs0) with h2 | h2
    · exact absurd h2 (by simp [initSt])
    · exact h2
  have hInvSeed : Inv g (setFollow initSt
      (setA (setdefaultAll initSt.followC (g.productions.map Prod.fst))
        g.start (insert DOLLAR s0))) := by
    refine ⟨?_, ?_, ?_, ?_⟩
    · intro p hp
      exact absurd hp (by simp [setFollow, initSt])
    · intro p hp
      exact absurd hp (by simp [setFollow, initSt])
    · intro p hp
      rcases setA_mem hp with h2 | h2
      · rcases setdefaultAll_mem (g.productions.map Prod.fst)
          initSt.followC p h2 with h3 | h3
        · exact absurd h3 (by simp [initSt])
        · rw [h3]
          exact Finset.empty_subset _
      · rw [h2]
        rw [hs0e]
        intro x hx
        rw [Finset.mem_insert] at hx
        rcases hx with hx | hx
        · rw [hx]
          apply Finset.mem_union_right
          exact Finset.mem_singleton_self DOLLAR
        · exact absurd hx (by simp)
    · intro X hX
      exact lookupA_setA_isSome _ g.start _ X
        (lookupA_setdefaultAll_isSome_of_mem initSt.followC _ X hX)
  have hloop := followLoopF_run g (validG_prodOK g hv)
    ((setA (setdefaultAll initSt.followC (g.productions.map Prod.fst))
        g.start (insert DOLLAR s0)).length *
      (symbolsF g ∪ {DOLLAR}).card + 2)
    (setFollow initSt
      (setA (setdefaultAll initSt.followC (g.productions.map Prod.fst))
        g.start (insert DOLLAR s0)))
    hInvSeed (by rw [setFollow_followC]; omega)
  obtain ⟨σ2, hσ2⟩ := Option.isSome_iff_exists.mp hloop
  refine ⟨fuelFF g,
    (setA (setdefaultAll initSt.followC (g.productions.map Prod.fst))
        g.start (insert DOLLAR s0)).length *
      (symbolsF g ∪ {DOLLAR}).card + 2, σ2, ?_⟩
  simp only [followAllF, hs0]
  exact hσ2

/-- Claim C4 witness: the spec's concrete valid grammar `S → A b | c`,
`A → ε`. -/
theorem follow_all_terminates_witness :
    validG (Grammar.init [("S", [["A", "b"], ["c"]]), ("A", [["ε"]])] "S")
      = true ∧
    ∃ fF fL σ2, followAllF fF fL
      (Grammar.init [("S", [["A", "b"], ["c"]]), ("A", [["ε"]])] "S")
      initSt = some σ2 :=
  ⟨by decide, follow_all_terminates_on_valid
    (Grammar.init [("S", [["A", "b"], ["c"]]), ("A", [["ε"]])] "S")
    (by decide)⟩

end FFP
